import Mathlib

/-!
Verification development for the Traffic_Bifurcate crawler / content pipeline.

Strings are modelled as lists of characters (`Str`).  The pieces of the
JavaScript runtime the source leans on (the WHATWG `URL` parser, regular
expressions, `String.prototype.trim`, …) are shallowly embedded as executable
Lean functions restricted to the ASCII fragment actually exercised by the
source: character classes (`\s`, `\w`, `\d`) are the ASCII ones, hosts are
ASCII domain names (no IDN, no percent-encoding, no `..` path segment
normalisation, ports carried verbatim without default-port elision).  All
embedded definitions follow the control flow of the TypeScript source files
(`src/app/api/ai-mirror/route.ts`, `src/app/api/extract/route.ts`,
`lib/extractor`, the structure analyzer and the markdown sanitizer).
-/

/-- Strings as character lists. -/
abbrev Str := List Char

/-- Turn a Lean string literal into our character-list representation. -/
def strL (s : String) : Str := s.data

/-- ASCII apostrophe, kept out of string literals. -/
def apos : Char := Char.ofNat 39

/-- JS `\s` (restricted to ASCII): space, tab, newline, carriage return,
vertical tab, form feed. -/
def isSpaceC (c : Char) : Bool :=
  c == ' ' || c == '\t' || c == '\n' || c == '\r' ||
  c == Char.ofNat 11 || c == Char.ofNat 12

/-- JS `\d`. -/
def isDigitC (c : Char) : Bool := '0' ≤ c && c ≤ '9'

/-- ASCII uppercase letter (`[A-Z]`). -/
def isUpperC (c : Char) : Bool := 'A' ≤ c && c ≤ 'Z'

/-- ASCII lowercase letter (`[a-z]`). -/
def isLowerC (c : Char) : Bool := 'a' ≤ c && c ≤ 'z'

/-- ASCII letter. -/
def isAlphaC (c : Char) : Bool := isUpperC c || isLowerC c

/-- JS `\w`: ASCII letter, digit or underscore. -/
def isWordC (c : Char) : Bool := isAlphaC c || isDigitC c || c == '_'

/-- ASCII lowercasing of one character (model of JS `toLowerCase`). -/
def lowerChar (c : Char) : Char :=
  if 65 ≤ c.toNat ∧ c.toNat ≤ 90 then Char.ofNat (c.toNat + 32) else c

/-- ASCII lowercasing of a string. -/
def lowerStr (s : Str) : Str := s.map lowerChar

/-- JS `String.prototype.trim` (ASCII whitespace fragment). -/
def trimStr (s : Str) : Str :=
  ((s.dropWhile isSpaceC).reverse.dropWhile isSpaceC).reverse

/-- Substring containment (`String.prototype.includes` / substring regex). -/
def containsSub (s pat : Str) : Bool :=
  s.tails.any (fun t => pat.isPrefixOf t)

/-- Case-insensitive substring containment. -/
def containsSubCI (s pat : Str) : Bool :=
  containsSub (lowerStr s) (lowerStr pat)

/-- Split a string at newline characters (`String.prototype.split("\n")`). -/
def splitNl (s : Str) : List Str :=
  match s with
  | [] => [[]]
  | c :: cs =>
    let r := splitNl cs
    if c == '\n' then [] :: r
    else (c :: r.headD []) :: r.tail

/-- Joining with newlines, inverse of `splitNl`. -/
def joinNl (ls : List Str) : Str :=
  match ls with
  | [] => []
  | [l] => l
  | l :: ls => l ++ '\n' :: joinNl ls

theorem splitNl_ne_nil (s : Str) : splitNl s ≠ [] := by
  cases s with
  | nil => simp [splitNl]
  | cons c cs => unfold splitNl; dsimp only; split <;> simp

theorem joinNl_splitNl (s : Str) : joinNl (splitNl s) = s := by
  induction s with
  | nil => rfl
  | cons c cs ih =>
    cases hs : splitNl cs with
    | nil => exact absurd hs (splitNl_ne_nil cs)
    | cons a as =>
      rw [hs] at ih
      by_cases h : c = '\n'
      · subst h
        simp only [splitNl, hs]
        cases as with
        | nil => simpa [joinNl] using ih
        | cons b bs => simpa [joinNl] using ih
      · have hc : (c == '\n') = false := by simp [h]
        simp only [splitNl, hs, hc, if_false]
        cases as with
        | nil => simpa [joinNl] using ih
        | cons b bs => simpa [joinNl] using ih

/-! ## URL model

A model of the WHATWG `URL` parser restricted to absolute `http(s)` URLs as
used by `normalizeUrl` (both the crawl-mode version in
`src/app/api/ai-mirror/route.ts` and the conservative version in
`lib/extractor`).  Scheme and host are lowercased; an empty path serializes
as `/`; query (`search`) and fragment (`hash`) keep their `?` / `#` markers;
the port is carried verbatim (default-port elision and percent-encoding are
outside the model). -/

structure JsUrl where
  scheme : Str
  host : Str
  port : Str
  pathname : Str
  search : Str
  hash : Str
deriving DecidableEq, Repr

/-- Characters that terminate the authority / start the path section. -/
def isSepC (c : Char) : Bool := c == '/' || c == '?' || c == '#'

/-- Slash or backslash: skipped between the scheme and the authority of a
special-scheme URL (WHATWG "special authority ignore slashes" state), so
`https:///about` parses with host `about` rather than failing. -/
def isSlashC (c : Char) : Bool := c == '/' || c == '\\'

/-- Characters forbidden in a host (WHATWG forbidden host code points,
ASCII fragment; also rejects userinfo and bracketed IPv6 syntax, which the
model does not cover). -/
def hostForbidden (c : Char) : Bool :=
  c == ' ' || c == '\t' || c == '\n' || c == '\r' || c == '#' || c == '%' ||
  c == '/' || c == ':' || c == '?' || c == '@' || c == '[' || c == '\\' ||
  c == ']' || c == '^' || c == '|' || c == '<' || c == '>' || c == '"'

/-- The case-insensitive scheme test `/^https?:\/\//i` used by both
`normalizeUrl` versions; returns the lowercased scheme and the remainder. -/
def schemeSplit (s : Str) : Option (Str × Str) :=
  if lowerStr (s.take 8) = strL "https://" then some (strL "https", s.drop 8)
  else if lowerStr (s.take 7) = strL "http://" then some (strL "http", s.drop 7)
  else none

/-- Split `pathname? search? hash?` out of the part following the authority. -/
def splitPathSearchHash (tail : Str) : Str × Str × Str :=
  let pathRaw := tail.takeWhile (fun c => !(c == '?' || c == '#'))
  let rest := tail.dropWhile (fun c => !(c == '?' || c == '#'))
  match rest with
  | '?' :: qs =>
    (pathRaw, '?' :: qs.takeWhile (fun c => !(c == '#')),
      qs.dropWhile (fun c => !(c == '#')))
  | _ => (pathRaw, [], rest)

/-- Authority/path parsing of the part following the scheme separator (and
any surplus slashes).  An empty host is a parse failure, as in WHATWG for
special schemes. -/
def parseAuth (scheme rest : Str) : Option JsUrl :=
    let authority := rest.takeWhile (fun c => !isSepC c)
    let tail := rest.dropWhile (fun c => !isSepC c)
    let hostRaw := authority.takeWhile (fun c => !(c == ':'))
    let portSeg := authority.dropWhile (fun c => !(c == ':'))
    if hostRaw = [] then none
    else if !hostRaw.all (fun c => !hostForbidden c) then none
    else
      let portOk : Option Str :=
        match portSeg with
        | [] => some []
        | _ :: ds => if ds.all isDigitC then some ds else none
      match portOk with
      | none => none
      | some port =>
        let (pathRaw, search, hash) := splitPathSearchHash tail
        some { scheme := scheme, host := lowerStr hostRaw, port := port,
               pathname := if pathRaw = [] then ['/'] else pathRaw,
               search := search, hash := hash }

/-- Model of `new URL(input)` for absolute `http(s)` inputs: after the
scheme separator, surplus `/` and `\` characters are skipped (non-fatal in
WHATWG), then the authority is parsed. -/
def parseAbs (s : Str) : Option JsUrl :=
  match schemeSplit s with
  | none => none
  | some (scheme, rest) => parseAuth scheme (rest.dropWhile isSlashC)

/-- `URL#toString` / `URL#href` for the modelled fragment. -/
def serializeUrl (u : JsUrl) : Str :=
  u.scheme ++ strL "://" ++ u.host ++
    (if u.port = [] then [] else ':' :: u.port) ++
    u.pathname ++ u.search ++ u.hash

/-- Does a candidate link look like it carries its own (non-http) scheme?
Such links produce a non-`https` URL in JS; the crawler's same-host filter
always discards them, so the model maps them to a failed resolution. -/
def looksSchemeLike (s : Str) : Bool :=
  let head := s.takeWhile (fun c => !(c == '/' || c == '?' || c == '#' || c == ':'))
  match s.drop head.length with
  | ':' :: _ => !head.isEmpty && isAlphaC (head.headD ' ')
  | _ => false

/-- Path directory of a base URL: everything up to and including the last
slash (RFC 3986 merge, without dot-segment normalisation). -/
def dirOfPath (p : Str) : Str :=
  (p.reverse.dropWhile (fun c => !(c == '/'))).reverse

/-- Model of `new URL(input, base)` for a relative `input` against an
absolute `http(s)` base. -/
def resolveRel (input : Str) (base : Str) : Option JsUrl :=
  match parseAbs base with
  | none => none
  | some b =>
    match input with
    | [] => some { b with hash := [] }
    | '/' :: '/' :: rest =>
      parseAbs (b.scheme ++ strL "://" ++ rest)
    | '/' :: rest =>
      let (pathRaw, search, hash) := splitPathSearchHash ('/' :: rest)
      some { b with pathname := if pathRaw = [] then ['/'] else pathRaw,
                    search := search, hash := hash }
    | '?' :: qs =>
      some { b with search := '?' :: qs.takeWhile (fun c => !(c == '#')),
                    hash := qs.dropWhile (fun c => !(c == '#')) }
    | '#' :: _ => some { b with hash := input }
    | _ =>
      if looksSchemeLike input then none
      else
        let (pathRaw, search, hash) := splitPathSearchHash input
        some { b with pathname := dirOfPath b.pathname ++ pathRaw,
                      search := search, hash := hash }

/-- Strip a trailing run of slashes from the path, restoring `/` when the
path empties: models `target.pathname = target.pathname.replace(/\/+$/, "")`
followed by the empty-path fixup, guarded by `pathname !== "/"`. -/
def stripTrailSlash (p : Str) : Str :=
  if p = ['/'] then p
  else
    let q := (p.reverse.dropWhile (fun c => c == '/')).reverse
    if q = [] then ['/'] else q

/-- Crawl-mode `normalizeUrl(input, base?)` from
`src/app/api/ai-mirror/route.ts` (lines 490-515): force `https`, drop
fragment and query, strip trailing slashes.  Throwing is modelled as
`Except.error`. -/
def normalizeUrlE (input : Str) (base : Option Str) : Except Unit Str :=
  let parsed : Option JsUrl :=
    if (schemeSplit input).isSome then parseAbs input
    else
      match base with
      | some b => resolveRel input b
      | none => parseAbs (strL "https://" ++ input)
  match parsed with
  | none => .error ()
  | some t =>
    let t := { t with scheme := strL "https", hash := [], search := [] }
    let t := { t with pathname := stripTrailSlash t.pathname }
    .ok (serializeUrl t)

/-- Conservative `normalizeUrl(input)` from `lib/extractor` (lines 114-132):
keep the query, drop only the fragment; reject non-http(s) protocols with a
400-class error. -/
def normalizeUrlCons (input : Str) : Except Nat Str :=
  let parsed : Option JsUrl :=
    if (schemeSplit input).isSome then parseAbs input
    else parseAbs (strL "https://" ++ input)
  match parsed with
  | none => .error 400
  | some u =>
    if u.scheme = strL "http" ∨ u.scheme = strL "https" then
      .ok (serializeUrl { u with hash := [] })
    else .error 400

/-! ## Normal forms and idempotence of the URL normalizers -/

theorem charToNatInj {a b : Char} (h : a.toNat = b.toNat) : a = b :=
  Char.eq_of_val_eq (UInt32.ext h)

theorem charLeToNat {a b : Char} (h : a ≤ b) : a.toNat ≤ b.toNat := h

theorem toNat_ofNat_small {n : Nat} (h : n < 55296) : (Char.ofNat n).toNat = n := by
  simp only [Char.ofNat, Nat.isValidChar]
  rw [dif_pos (Or.inl h)]
  simp only [Char.ofNatAux, Char.toNat]
  show (UInt32.ofNat' n _).toNat = n
  simp [UInt32.ofNat', UInt32.toNat, BitVec.toNat_ofNat]

theorem lowerChar_toNat_upper {c : Char} (h1 : 65 ≤ c.toNat) (h2 : c.toNat ≤ 90) :
    (lowerChar c).toNat = c.toNat + 32 := by
  unfold lowerChar
  rw [if_pos ⟨h1, h2⟩]
  exact toNat_ofNat_small (by omega)

theorem lowerChar_eq_self {c : Char} (h : ¬(65 ≤ c.toNat ∧ c.toNat ≤ 90)) :
    lowerChar c = c := by
  unfold lowerChar
  rw [if_neg h]

theorem lowerChar_idem (c : Char) : lowerChar (lowerChar c) = lowerChar c := by
  by_cases h : 65 ≤ c.toNat ∧ c.toNat ≤ 90
  · have ht := lowerChar_toNat_upper h.1 h.2
    exact lowerChar_eq_self (by omega)
  · rw [lowerChar_eq_self h]
    exact lowerChar_eq_self h

theorem lowerStr_idem (s : Str) : lowerStr (lowerStr s) = lowerStr s := by
  unfold lowerStr
  rw [List.map_map]
  exact List.map_congr_left (fun c _ => lowerChar_idem c)

/-- `hostForbidden` never holds on ASCII letters, so it commutes with
lowercasing. -/
theorem hostForbidden_letters {c : Char}
    (h : (65 ≤ c.toNat ∧ c.toNat ≤ 90) ∨ (97 ≤ c.toNat ∧ c.toNat ≤ 122)) :
    hostForbidden c = false := by
  have ne : ∀ d : Char, (d.toNat < 65 ∨ (90 < d.toNat ∧ d.toNat < 97) ∨ 122 < d.toNat) →
      (c == d) = false := by
    intro d hd
    rw [beq_eq_false_iff_ne]
    intro he
    rw [he] at h
    omega
  simp only [hostForbidden,
    ne ' ' (by decide), ne '\t' (by decide), ne '\n' (by decide),
    ne '\r' (by decide), ne '#' (by decide), ne '%' (by decide),
    ne '/' (by decide), ne ':' (by decide), ne '?' (by decide),
    ne '@' (by decide), ne '[' (by decide), ne '\\' (by decide),
    ne ']' (by decide), ne '^' (by decide), ne '|' (by decide),
    ne '<' (by decide), ne '>' (by decide), ne '"' (by decide),
    Bool.or_false]

theorem hostForbidden_lowerChar (c : Char) :
    hostForbidden (lowerChar c) = hostForbidden c := by
  by_cases h : 65 ≤ c.toNat ∧ c.toNat ≤ 90
  · have ht := lowerChar_toNat_upper h.1 h.2
    rw [hostForbidden_letters (Or.inl h), hostForbidden_letters (Or.inr (by omega))]
  · rw [lowerChar_eq_self h]

theorem not_sep_of_not_forbidden {c : Char} (h : hostForbidden c = false) :
    isSepC c = false := by
  simp only [hostForbidden, Bool.or_eq_false_iff] at h
  simp only [isSepC, Bool.or_eq_false_iff]
  tauto

theorem not_colon_of_not_forbidden {c : Char} (h : hostForbidden c = false) :
    (c == ':') = false := by
  simp only [hostForbidden, Bool.or_eq_false_iff] at h
  tauto

theorem digit_not_special {c : Char} (h : isDigitC c = true) :
    isSepC c = false ∧ (c == ':') = false := by
  simp only [isDigitC, Bool.and_eq_true, decide_eq_true_eq] at h
  have h1 := charLeToNat h.1
  have h2 := charLeToNat h.2
  have ne : ∀ d : Char, (d.toNat < 48 ∨ 57 < d.toNat) → (c == d) = false := by
    intro d hd
    rw [beq_eq_false_iff_ne]
    intro he
    rw [he] at h1 h2
    have h0 : ('0' : Char).toNat = 48 := by decide
    have h9 : ('9' : Char).toNat = 57 := by decide
    omega
  constructor
  · simp only [isSepC, ne '/' (by decide), ne '?' (by decide), ne '#' (by decide),
      Bool.or_false]
  · exact ne ':' (by decide)

theorem takeWhile_append_all {p : Char → Bool} {xs ys : Str} (h : xs.all p) :
    (xs ++ ys).takeWhile p = xs ++ ys.takeWhile p := by
  induction xs with
  | nil => rfl
  | cons a as ih => simp_all [List.takeWhile_cons, List.all_cons]

theorem dropWhile_append_all {p : Char → Bool} {xs ys : Str} (h : xs.all p) :
    (xs ++ ys).dropWhile p = ys.dropWhile p := by
  induction xs with
  | nil => rfl
  | cons a as ih => simp_all [List.dropWhile_cons, List.all_cons]

theorem all_of_sublist {p : Char → Bool} {l m : Str} (h : List.Sublist m l)
    (ha : l.all p = true) : m.all p = true := by
  simp only [List.all_eq_true] at *
  exact fun c hc => ha c (h.mem hc)

theorem revDropRev_isPrefix (l : Str) (p : Char → Bool) :
    (l.reverse.dropWhile p).reverse <+: l := by
  have h : l.reverse.dropWhile p <:+ l.reverse := List.dropWhile_suffix p
  exact List.reverse_suffix.mp (by simpa using h)

/-- Well-formedness of a parsed URL record: exactly the shape produced by
`parseAbs`, and the shape on which `serializeUrl` inverts. -/
structure UrlWF (u : JsUrl) : Prop where
  scheme_ok : u.scheme = strL "http" ∨ u.scheme = strL "https"
  host_ne : u.host ≠ []
  host_ok : u.host.all (fun c => !hostForbidden c) = true
  host_lower : lowerStr u.host = u.host
  port_ok : u.port.all isDigitC = true
  path_head : ∃ r, u.pathname = '/' :: r
  path_ok : u.pathname.all (fun c => !(c == '?' || c == '#')) = true
  search_ok : u.search = [] ∨
    ∃ r, u.search = '?' :: r ∧ r.all (fun c => !(c == '#')) = true
  hash_ok : u.hash = [] ∨ ∃ r, u.hash = '#' :: r

theorem dropWhile_eq_nil_or_head {p : Char → Bool} (l : Str) :
    l.dropWhile p = [] ∨ ∃ c r, l.dropWhile p = c :: r ∧ p c = false := by
  cases hd : l.dropWhile p with
  | nil => exact Or.inl rfl
  | cons c r =>
    refine Or.inr ⟨c, r, rfl, ?_⟩
    have hw := List.head_dropWhile_not p l (by simp [hd])
    simpa [hd] using hw

theorem splitPSH_fst (t : Str) :
    (splitPathSearchHash t).1 = t.takeWhile (fun c => !(c == '?' || c == '#')) := by
  unfold splitPathSearchHash
  dsimp only
  split <;> rfl

theorem splitPSH_spec (t : Str) {pr se ha : Str}
    (heq : splitPathSearchHash t = (pr, se, ha)) :
    pr.all (fun c => !(c == '?' || c == '#')) = true ∧
    (se = [] ∨ ∃ r, se = '?' :: r ∧ r.all (fun c => !(c == '#')) = true) ∧
    (ha = [] ∨ ∃ r, ha = '#' :: r) := by
  unfold splitPathSearchHash at heq
  dsimp only at heq
  split at heq
  case _ qs hrest =>
    injection heq with e1 e23
    injection e23 with e2 e3
    subst e1 e2 e3
    refine ⟨List.all_takeWhile, Or.inr ⟨_, rfl, List.all_takeWhile⟩, ?_⟩
    rcases @dropWhile_eq_nil_or_head (fun c => !(c == '#')) qs with hnil | ⟨c, r, hcr, hc⟩
    · exact Or.inl hnil
    · have hc2 : c = '#' := by simpa using hc
      subst hc2
      exact Or.inr ⟨r, hcr⟩
  case _ hne =>
    injection heq with e1 e23
    injection e23 with e2 e3
    subst e1 e2 e3
    refine ⟨List.all_takeWhile, Or.inl rfl, ?_⟩
    rcases @dropWhile_eq_nil_or_head
        (fun c => !(c == '?' || c == '#')) t with hnil | ⟨c, r, hcr, hc⟩
    · exact Or.inl hnil
    · simp at hc
      by_cases hq : c = '?'
      · subst hq
        exact absurd hcr (fun hx => hne r hx)
      · have hh := hc hq
        subst hh
        exact Or.inr ⟨r, hcr⟩

theorem schemeSplit_cases {s sc rest : Str} (h : schemeSplit s = some (sc, rest)) :
    sc = strL "http" ∨ sc = strL "https" := by
  unfold schemeSplit at h
  split at h
  · injection h with h'
    injection h' with h1 h2
    exact Or.inr h1.symm
  · split at h
    · injection h with h'
      injection h' with h1 h2
      exact Or.inl h1.symm
    · exact absurd h (by simp)

theorem parseAuth_wf {sc rest : Str} {u : JsUrl}
    (hsc : sc = strL "http" ∨ sc = strL "https")
    (h : parseAuth sc rest = some u) : UrlWF u := by
  unfold parseAuth at h
  dsimp only at h
  split at h
  · exact absurd h (by simp)
  case _ hne =>
    split at h
    · exact absurd h (by simp)
    case _ hgood =>
      split at h
      · exact absurd h (by simp)
      case _ port hport =>
        rcases hsp : splitPathSearchHash
            (rest.dropWhile (fun c => !isSepC c)) with ⟨pr, se, ha⟩
        rw [hsp] at h
        injection h with h
        obtain ⟨hpr, hse, hha⟩ := splitPSH_spec _ hsp
        have hgood' : ((rest.takeWhile (fun c => !isSepC c)).takeWhile
            (fun c => !(c == ':'))).all (fun c => !hostForbidden c) = true := by
          simpa using hgood
        refine { scheme_ok := ?_, host_ne := ?_, host_ok := ?_, host_lower := ?_,
                 port_ok := ?_, path_head := ?_, path_ok := ?_,
                 search_ok := ?_, hash_ok := ?_ } <;> rw [← h]
        · exact hsc
        · show lowerStr _ ≠ []
          unfold lowerStr
          simpa using hne
        · show (lowerStr _).all _ = true
          unfold lowerStr
          rw [List.all_map]
          have : ((fun c => !hostForbidden c) ∘ lowerChar) =
              (fun c => !hostForbidden c) := by
            funext c
            simp [Function.comp, hostForbidden_lowerChar]
          rw [this]
          exact hgood'
        · exact lowerStr_idem _
        · show port.all isDigitC = true
          revert hport
          split
          · intro hp; injection hp with hp; rw [← hp]; rfl
          · split
            · intro hp; injection hp with hp; rw [← hp]; assumption
            · intro hp; exact absurd hp (by simp)
        · show ∃ r, (if pr = [] then ['/'] else pr) = '/' :: r
          by_cases hpe : pr = []
          · rw [if_pos hpe]; exact ⟨[], rfl⟩
          · rw [if_neg hpe]
            have hfst := splitPSH_fst (rest.dropWhile (fun c => !isSepC c))
            rw [hsp] at hfst
            dsimp at hfst
            rcases @dropWhile_eq_nil_or_head
                (fun c => !isSepC c) rest with hnil | ⟨c, r, hcr, hc⟩
            · rw [hnil] at hfst
              simp [List.takeWhile] at hfst
              exact absurd hfst hpe
            · rw [hcr] at hfst
              have hcsep : isSepC c = true := by simpa using hc
              simp only [isSepC, Bool.or_eq_true, beq_iff_eq] at hcsep
              rcases hcsep with (h1 | h1) | h1
              · subst h1
                rw [List.takeWhile_cons] at hfst
                simp only [show ((!('/' == '?' || '/' == '#')) = true) by decide,
                  if_true] at hfst
                exact ⟨_, hfst⟩
              · subst h1
                rw [List.takeWhile_cons] at hfst
                simp at hfst
                exact absurd hfst hpe
              · subst h1
                rw [List.takeWhile_cons] at hfst
                simp at hfst
                exact absurd hfst hpe
        · show (if pr = [] then ['/'] else pr).all _ = true
          by_cases hpe : pr = []
          · rw [if_pos hpe]; decide
          · rw [if_neg hpe]; exact hpr
        · exact hse
        · exact hha

theorem parseAbs_wf {s : Str} {u : JsUrl} (h : parseAbs s = some u) : UrlWF u := by
  unfold parseAbs at h
  split at h
  · exact absurd h (by simp)
  case _ sc rest hss =>
    exact parseAuth_wf (schemeSplit_cases hss) h

theorem all_mono {p q : Char → Bool} (h : ∀ c, p c = true → q c = true) {l : Str}
    (hl : l.all p = true) : l.all q = true := by
  simp only [List.all_eq_true] at *
  exact fun c hc => h c (hl c hc)

/-- takeWhile/dropWhile on `xs ++ ys` when all of `xs` passes and `ys` opens
with a failing character (or is empty). -/
theorem takeDrop_stop {p : Char → Bool} {xs ys : Str} (hxs : xs.all p = true)
    (hys : ys = [] ∨ ∃ c r, ys = c :: r ∧ p c = false) :
    (xs ++ ys).takeWhile p = xs ∧ (xs ++ ys).dropWhile p = ys := by
  rw [takeWhile_append_all hxs, dropWhile_append_all hxs]
  rcases hys with rfl | ⟨c, r, rfl, hc⟩
  · simp
  · simp [List.takeWhile_cons, List.dropWhile_cons, hc]

/-- The tail of the serialization, after `scheme://`. -/
def serializeTail (u : JsUrl) : Str :=
  u.host ++ ((if u.port = [] then [] else ':' :: u.port) ++
    (u.pathname ++ (u.search ++ u.hash)))

theorem serializeUrl_eq (u : JsUrl) :
    serializeUrl u = u.scheme ++ (strL "://" ++ serializeTail u) := by
  simp [serializeUrl, serializeTail, List.append_assoc]

theorem schemeSplit_serialize {u : JsUrl} (hwf : UrlWF u) :
    schemeSplit (serializeUrl u) = some (u.scheme, serializeTail u) := by
  rcases hwf.scheme_ok with hsc | hsc
  · have hser : serializeUrl u = strL "http://" ++ serializeTail u := by
      rw [serializeUrl_eq, hsc]
      rfl
    unfold schemeSplit
    rw [hser]
    have hlen7 : (strL "http://").length = 7 := rfl
    have hfalse : ¬ lowerStr ((strL "http://" ++ serializeTail u).take 8) =
        strL "https://" := by
      intro heq
      rw [List.take_append_eq_append_take, hlen7] at heq
      rw [show (strL "http://").take 8 = strL "http://" from rfl] at heq
      unfold lowerStr at heq
      rw [List.map_append] at heq
      rw [show (strL "http://").map lowerChar = strL "http://" from by decide] at heq
      have h4 := congrArg (fun l => l.drop 4) heq
      simp only [strL] at h4
      simp only [List.drop, List.cons_append] at h4
      injection h4 with h5 _
      exact absurd h5 (by decide)
    rw [if_neg hfalse]
    rw [List.take_append_eq_append_take, hlen7]
    rw [show (strL "http://").take 7 = strL "http://" from rfl]
    simp only [Nat.sub_self, List.take_zero, List.append_nil]
    rw [show lowerStr (strL "http://") = strL "http://" from by decide]
    rw [if_pos rfl, hsc]
    rw [List.drop_append_eq_append_drop, hlen7]
    simp
    decide
  · have hser : serializeUrl u = strL "https://" ++ serializeTail u := by
      rw [serializeUrl_eq, hsc]
      rfl
    unfold schemeSplit
    rw [hser]
    have hlen8 : (strL "https://").length = 8 := rfl
    rw [List.take_append_eq_append_take, hlen8]
    rw [show (strL "https://").take 8 = strL "https://" from rfl]
    simp only [Nat.sub_self, List.take_zero, List.append_nil]
    rw [show lowerStr (strL "https://") = strL "https://" from by decide]
    rw [if_pos rfl, hsc]
    rw [List.drop_append_eq_append_drop, hlen8]
    simp
    decide

theorem not_forbidden_imp_not_sep :
    ∀ c : Char, (!hostForbidden c) = true → (!isSepC c) = true := by
  intro c hc
  have h1 : hostForbidden c = false := by simpa using hc
  have h2 := not_sep_of_not_forbidden h1
  simp [h2]

theorem not_forbidden_imp_not_colon :
    ∀ c : Char, (!hostForbidden c) = true → (!(c == ':')) = true := by
  intro c hc
  have h1 : hostForbidden c = false := by simpa using hc
  have h2 := not_colon_of_not_forbidden h1
  simp [h2]

theorem digit_imp_not_sep : ∀ c : Char, isDigitC c = true → (!isSepC c) = true := by
  intro c hc
  simp [(digit_not_special hc).1]

/-- A serialized authority starts with a host character, never a slash, so
the surplus-slash skipping of `parseAbs` is the identity there. -/
theorem dropSlash_host_append {host : Str} (hne : host ≠ [])
    (hok : host.all (fun c => !hostForbidden c) = true) (ys : Str) :
    (host ++ ys).dropWhile isSlashC = host ++ ys := by
  cases host with
  | nil => exact absurd rfl hne
  | cons c cs =>
    rw [List.all_cons, Bool.and_eq_true] at hok
    have hforb : hostForbidden c = false := by simpa using hok.1
    have h1 : ¬ c = '/' := fun hx => by
      subst hx; exact absurd hforb (by decide)
    have h2 : ¬ c = '\\' := fun hx => by
      subst hx; exact absurd hforb (by decide)
    have hslash : isSlashC c = false := by simp [isSlashC, h1, h2]
    rw [List.cons_append, List.dropWhile_cons, hslash]
    simp

theorem splitPSH_serialize {path se ha : Str}
    (hpath : path.all (fun c => !(c == '?' || c == '#')) = true)
    (hse : se = [] ∨ ∃ r, se = '?' :: r ∧ r.all (fun c => !(c == '#')) = true)
    (hha : ha = [] ∨ ∃ r, ha = '#' :: r) :
    splitPathSearchHash (path ++ (se ++ ha)) = (path, se, ha) := by
  have hys : se ++ ha = [] ∨ ∃ c r, se ++ ha = c :: r ∧
      (fun c => !(c == '?' || c == '#')) c = false := by
    rcases hse with rfl | ⟨r, rfl, hr⟩
    · rcases hha with rfl | ⟨r, rfl⟩
      · exact Or.inl rfl
      · exact Or.inr ⟨'#', r, rfl, by decide⟩
    · exact Or.inr ⟨'?', r ++ ha, rfl, by decide⟩
  obtain ⟨htake, hdrop⟩ := takeDrop_stop hpath hys
  unfold splitPathSearchHash
  dsimp only
  rw [htake, hdrop]
  rcases hse with rfl | ⟨r, rfl, hr⟩
  · rcases hha with rfl | ⟨r, rfl⟩
    · rfl
    · rfl
  · have hys2 : ha = [] ∨ ∃ c r2, ha = c :: r2 ∧ (fun c => !(c == '#')) c = false := by
      rcases hha with rfl | ⟨r2, rfl⟩
      · exact Or.inl rfl
      · exact Or.inr ⟨'#', r2, rfl, by decide⟩
    obtain ⟨htake2, hdrop2⟩ := takeDrop_stop hr hys2
    split
    case _ qs hq =>
      rw [List.cons_append] at hq
      injection hq with _ hq2
      rw [← hq2, htake2, hdrop2]
    case _ hne =>
      exact absurd (List.cons_append '?' r ha) (fun hx => hne (r ++ ha) hx)

theorem parse_serialize {u : JsUrl} (hwf : UrlWF u) :
    parseAbs (serializeUrl u) = some u := by
  have hss := schemeSplit_serialize hwf
  obtain ⟨scheme, host, port, pathname, search, hash⟩ := u
  obtain ⟨hscheme, hne, hok, hlow, hpok, hph, hpo, hso, hho⟩ := hwf
  dsimp only at hss hne hok hlow hpok hph hpo hso hho
  obtain ⟨pr, hpr⟩ := hph
  subst hpr
  have hhostSep : host.all (fun c => !isSepC c) = true :=
    all_mono not_forbidden_imp_not_sep hok
  have hhostCol : host.all (fun c => !(c == ':')) = true :=
    all_mono not_forbidden_imp_not_colon hok
  have hportSep : port.all (fun c => !isSepC c) = true :=
    all_mono digit_imp_not_sep hpok
  have hsp := @splitPSH_serialize ('/' :: pr) search hash hpo hso hho
  rw [List.cons_append] at hsp
  by_cases hp : port = []
  · subst hp
    have hst : serializeTail ⟨scheme, host, [], '/' :: pr, search, hash⟩ =
        host ++ ('/' :: (pr ++ (search ++ hash))) := by
      simp [serializeTail]
    rw [hst] at hss
    have hauth := @takeDrop_stop (fun c => !isSepC c) host
      ('/' :: (pr ++ (search ++ hash))) hhostSep
      (Or.inr ⟨'/', pr ++ (search ++ hash), rfl, by decide⟩)
    have hhp := @takeDrop_stop (fun c => !(c == ':')) host
      [] hhostCol (Or.inl rfl)
    rw [List.append_nil] at hhp
    unfold parseAbs
    rw [hss]
    dsimp only
    rw [dropSlash_host_append hne hok _]
    unfold parseAuth
    dsimp only
    rw [hauth.1, hauth.2, hhp.1, hhp.2]
    rw [if_neg hne]
    rw [if_neg (by rw [hok]; simp)]
    dsimp only
    rw [hsp]
    dsimp only
    rw [if_neg (by simp)]
    rw [hlow]
  · obtain ⟨d, ds, hds⟩ : ∃ d ds, port = d :: ds := by
      cases port with
      | nil => exact absurd rfl hp
      | cons d ds => exact ⟨d, ds, rfl⟩
    subst hds
    have hst : serializeTail ⟨scheme, host, d :: ds, '/' :: pr, search, hash⟩ =
        (host ++ (':' :: d :: ds)) ++ ('/' :: (pr ++ (search ++ hash))) := by
      simp [serializeTail]
    rw [hst] at hss
    have hall : (host ++ (':' :: d :: ds)).all (fun c => !isSepC c) = true := by
      rw [List.all_append, hhostSep, List.all_cons, hportSep]
      decide
    have hauth := @takeDrop_stop (fun c => !isSepC c)
      (host ++ (':' :: d :: ds))
      ('/' :: (pr ++ (search ++ hash))) hall
      (Or.inr ⟨'/', pr ++ (search ++ hash), rfl, by decide⟩)
    have hhp := @takeDrop_stop (fun c => !(c == ':')) host
      (':' :: d :: ds) hhostCol
      (Or.inr ⟨':', d :: ds, rfl, by decide⟩)
    unfold parseAbs
    rw [hss]
    dsimp only
    rw [List.append_assoc, dropSlash_host_append hne hok _, ← List.append_assoc]
    unfold parseAuth
    dsimp only
    rw [hauth.1, hauth.2]
    rw [hhp.1, hhp.2]
    rw [if_neg hne]
    rw [if_neg (by rw [hok]; simp)]
    dsimp only
    rw [if_pos (by simpa using hpok)]
    rw [hsp]
    dsimp only
    rw [if_neg (by simp)]
    rw [hlow]

theorem prefix_head {q r : Str} {a : Char} (hpre : q <+: a :: r) (hne : q ≠ []) :
    ∃ q2, q = a :: q2 := by
  cases q with
  | nil => exact absurd rfl hne
  | cons c cs =>
    rcases hpre with ⟨t, ht⟩
    rw [List.cons_append] at ht
    injection ht with h1 _
    exact ⟨cs, by rw [h1]⟩

theorem dirOfPath_isPrefix (p : Str) : dirOfPath p <+: p :=
  revDropRev_isPrefix p _

theorem dirOfPath_head {r : Str} :
    ∃ r2, dirOfPath ('/' :: r) = '/' :: r2 := by
  apply prefix_head (dirOfPath_isPrefix ('/' :: r))
  unfold dirOfPath
  intro hnil
  rw [List.reverse_eq_nil_iff, List.dropWhile_eq_nil_iff] at hnil
  have h := hnil '/' (by simp)
  simp at h

theorem stripTrailSlash_head {p : Str} (h : ∃ r, p = '/' :: r) :
    ∃ r, stripTrailSlash p = '/' :: r := by
  obtain ⟨r, rfl⟩ := h
  unfold stripTrailSlash
  by_cases h1 : ('/' :: r : Str) = ['/']
  · rw [if_pos h1]
    exact ⟨[], h1⟩
  · rw [if_neg h1]
    dsimp only
    by_cases h2 : (('/' :: r).reverse.dropWhile (fun c => c == '/')).reverse = []
    · rw [if_pos h2]
      exact ⟨[], rfl⟩
    · rw [if_neg h2]
      exact prefix_head (revDropRev_isPrefix _ _) h2

theorem stripTrailSlash_all {p : Str} {pred : Char → Bool} (hsl : pred '/' = true)
    (h : p.all pred = true) : (stripTrailSlash p).all pred = true := by
  unfold stripTrailSlash
  split
  · exact h
  · dsimp only
    split
    · simp [hsl]
    · exact all_of_sublist (revDropRev_isPrefix _ _).sublist h

/-- Strings already free of a trailing slash run (or equal to `/`) are fixed
by the trailing-slash stripper. -/
theorem stripTrailSlash_fix {q : Str}
    (h : q = ['/'] ∨ ∃ c cs, q.reverse = c :: cs ∧ (c == '/') = false) :
    stripTrailSlash q = q := by
  unfold stripTrailSlash
  rcases h with rfl | ⟨c, cs, hrev, hc⟩
  · rw [if_pos rfl]
  · by_cases h1 : q = ['/']
    · rw [if_pos h1]
    · rw [if_neg h1]
      dsimp only
      have hqrev : (c :: cs).reverse = q := by
        rw [← hrev, List.reverse_reverse]
      have hqne : q ≠ [] := by
        intro hq
        rw [hq] at hrev
        simp at hrev
      rw [hrev, List.dropWhile_cons, hc]
      simp only [Bool.false_eq_true, if_false]
      rw [hqrev]
      rw [if_neg hqne]

theorem stripTrailSlash_shape (p : Str) :
    stripTrailSlash p = ['/'] ∨
      ∃ c cs, (stripTrailSlash p).reverse = c :: cs ∧ (c == '/') = false := by
  unfold stripTrailSlash
  split
  case _ hp => exact Or.inl hp
  case _ hp =>
    dsimp only
    split
    case _ hq => exact Or.inl rfl
    case _ hq =>
      right
      cases hd : p.reverse.dropWhile (fun c => c == '/') with
      | nil => exact absurd (by rw [hd]; rfl) hq
      | cons c cs =>
        have hc : (c == '/') = false := by
          have hw := List.head_dropWhile_not (fun c => c == '/') p.reverse
            (by simp [hd])
          simpa [hd] using hw
        exact ⟨c, cs, by simp, hc⟩

theorem stripTrailSlash_idem (p : Str) :
    stripTrailSlash (stripTrailSlash p) = stripTrailSlash p :=
  stripTrailSlash_fix (stripTrailSlash_shape p)

theorem resolveRel_wf {i b : Str} {u : JsUrl} (h : resolveRel i b = some u) :
    UrlWF u := by
  unfold resolveRel at h
  split at h
  · exact absurd h (by simp)
  case _ bu hb =>
    have hbwf := parseAbs_wf hb
    split at h
    · -- empty input: base minus fragment
      injection h with h
      subst h
      exact ⟨hbwf.scheme_ok, hbwf.host_ne, hbwf.host_ok, hbwf.host_lower,
        hbwf.port_ok, hbwf.path_head, hbwf.path_ok, hbwf.search_ok, Or.inl rfl⟩
    · -- protocol-relative input
      exact parseAbs_wf h
    · -- absolute-path input
      rename_i rest hexcl
      rcases hsp : splitPathSearchHash ('/' :: rest) with ⟨pr, se, ha⟩
      rw [hsp] at h
      dsimp only at h
      injection h with h
      subst h
      obtain ⟨hpr, hse, hha⟩ := splitPSH_spec _ hsp
      have hfst := splitPSH_fst ('/' :: rest)
      rw [hsp] at hfst
      dsimp only at hfst
      rw [List.takeWhile_cons] at hfst
      rw [if_pos (by decide)] at hfst
      refine ⟨hbwf.scheme_ok, hbwf.host_ne, hbwf.host_ok, hbwf.host_lower,
        hbwf.port_ok, ?_, ?_, hse, hha⟩
      · show ∃ r, (if pr = [] then ['/'] else pr) = '/' :: r
        rw [if_neg (by rw [hfst]; simp)]
        exact ⟨_, hfst⟩
      · show (if pr = [] then ['/'] else pr).all _ = true
        rw [if_neg (by rw [hfst]; simp)]
        exact hpr
    · -- query-only input
      rename_i qs
      injection h with h
      subst h
      refine ⟨hbwf.scheme_ok, hbwf.host_ne, hbwf.host_ok, hbwf.host_lower,
        hbwf.port_ok, hbwf.path_head, hbwf.path_ok,
        Or.inr ⟨_, rfl, List.all_takeWhile⟩, ?_⟩
      show qs.dropWhile _ = [] ∨ _
      rcases @dropWhile_eq_nil_or_head (fun c => !(c == '#')) qs with
        hnil | ⟨c, r, hcr, hc⟩
      · exact Or.inl hnil
      · have hc2 : c = '#' := by simpa using hc
        subst hc2
        exact Or.inr ⟨r, hcr⟩
    · -- fragment-only input
      injection h with h
      subst h
      exact ⟨hbwf.scheme_ok, hbwf.host_ne, hbwf.host_ok, hbwf.host_lower,
        hbwf.port_ok, hbwf.path_head, hbwf.path_ok, hbwf.search_ok,
        Or.inr ⟨_, rfl⟩⟩
    · -- relative path merge
      split at h
      · exact absurd h (by simp)
      · rcases hsp : splitPathSearchHash i with ⟨pr, se, ha⟩
        rw [hsp] at h
        dsimp only at h
        injection h with h
        subst h
        obtain ⟨hpr, hse, hha⟩ := splitPSH_spec _ hsp
        obtain ⟨br, hbr⟩ := hbwf.path_head
        refine ⟨hbwf.scheme_ok, hbwf.host_ne, hbwf.host_ok, hbwf.host_lower,
          hbwf.port_ok, ?_, ?_, hse, hha⟩
        · show ∃ r, dirOfPath bu.pathname ++ pr = '/' :: r
          rw [hbr]
          obtain ⟨r2, hdir⟩ := @dirOfPath_head br
          rw [hdir]
          exact ⟨r2 ++ pr, by simp⟩
        · show (dirOfPath bu.pathname ++ pr).all _ = true
          rw [List.all_append]
          have h1 : (dirOfPath bu.pathname).all
              (fun c => !(c == '?' || c == '#')) = true :=
            all_of_sublist (dirOfPath_isPrefix bu.pathname).sublist hbwf.path_ok
          rw [h1, hpr]
          rfl

/-- The normal form produced by the crawl-mode normalizer: an `https` URL
with no query, no fragment, and no trailing slash run in the path. -/
def IsCrawlNormal (t : Str) : Prop :=
  ∃ u : JsUrl, UrlWF u ∧ u.scheme = strL "https" ∧ u.search = [] ∧
    u.hash = [] ∧ stripTrailSlash u.pathname = u.pathname ∧ t = serializeUrl u

/-- The normal form produced by the conservative normalizer: an `http(s)` URL
with no fragment. -/
def IsConsNormal (t : Str) : Prop :=
  ∃ u : JsUrl, UrlWF u ∧ u.hash = [] ∧ t = serializeUrl u

theorem normalizeUrlE_ok_normal {i : Str} {b : Option Str} {t : Str}
    (h : normalizeUrlE i b = .ok t) : IsCrawlNormal t := by
  unfold normalizeUrlE at h
  dsimp only at h
  split at h
  · exact absurd h (by simp)
  case _ v hv =>
    injection h with h
    have hvwf : UrlWF v := by
      split at hv
      · exact parseAbs_wf hv
      · split at hv
        · exact resolveRel_wf hv
        · exact parseAbs_wf hv
    refine ⟨{ v with scheme := strL "https", hash := [], search := [], pathname := stripTrailSlash v.pathname }, ?_, rfl, rfl, rfl, ?_, ?_⟩
    · exact ⟨Or.inr rfl, hvwf.host_ne, hvwf.host_ok, hvwf.host_lower,
        hvwf.port_ok, stripTrailSlash_head hvwf.path_head,
        stripTrailSlash_all (by decide) hvwf.path_ok, Or.inl rfl, Or.inl rfl⟩
    · exact stripTrailSlash_idem v.pathname
    · exact h.symm

theorem crawlNormal_fixed {t : Str} (h : IsCrawlNormal t) (b : Option Str) :
    normalizeUrlE t b = .ok t := by
  obtain ⟨u, hwf, hsch, hse, hha, hfix, rfl⟩ := h
  have hss := schemeSplit_serialize hwf
  have hps := parse_serialize hwf
  obtain ⟨sc, host, port, pathn, se, ha⟩ := u
  dsimp only at hsch hse hha hfix
  subst hsch hse hha
  unfold normalizeUrlE
  dsimp only
  rw [if_pos (by rw [hss]; rfl)]
  rw [hps]
  dsimp only
  rw [hfix]

/-- Crawl-mode normalization is idempotent: its output re-normalizes to
itself (with or without a base). -/
theorem normalizeUrlE_idem {i : Str} {b : Option Str} {t : Str}
    (h : normalizeUrlE i b = .ok t) (b2 : Option Str) :
    normalizeUrlE t b2 = .ok t :=
  crawlNormal_fixed (normalizeUrlE_ok_normal h) b2

theorem normalizeUrlCons_ok_normal {i t : Str}
    (h : normalizeUrlCons i = .ok t) : IsConsNormal t := by
  unfold normalizeUrlCons at h
  dsimp only at h
  split at h
  · exact absurd h (by simp)
  case _ v hv =>
    split at h
    case _ hsch =>
      injection h with h
      have hvwf : UrlWF v := by
        split at hv
        · exact parseAbs_wf hv
        · exact parseAbs_wf hv
      refine ⟨{ v with hash := [] }, ?_, rfl, h.symm⟩
      exact ⟨hvwf.scheme_ok, hvwf.host_ne, hvwf.host_ok, hvwf.host_lower,
        hvwf.port_ok, hvwf.path_head, hvwf.path_ok, hvwf.search_ok, Or.inl rfl⟩
    · exact absurd h (by simp)

theorem consNormal_fixed {t : Str} (h : IsConsNormal t) :
    normalizeUrlCons t = .ok t := by
  obtain ⟨u, hwf, hha, rfl⟩ := h
  have hss := schemeSplit_serialize hwf
  have hps := parse_serialize hwf
  have hsch := hwf.scheme_ok
  obtain ⟨sc, host, port, pathn, se, ha⟩ := u
  dsimp only at hha
  subst hha
  unfold normalizeUrlCons
  dsimp only
  rw [if_pos (by rw [hss]; rfl)]
  rw [hps]
  dsimp only
  rw [if_pos hsch]

/-- Conservative normalization is idempotent. -/
theorem normalizeUrlCons_idem {i t : Str} (h : normalizeUrlCons i = .ok t) :
    normalizeUrlCons t = .ok t :=
  consNormal_fixed (normalizeUrlCons_ok_normal h)

/-! ## Crawl scheduler model (`src/app/api/ai-mirror/route.ts`, `POST`)

The crawl loop is embedded as a step function over an explicit state, with
network I/O abstracted into a fetch oracle: `fetchPage` becomes a function
`Str → Option FetchResultM` supplying, per URL, the final URL, the trimmed
`<link rel=canonical>` href, the extracted link hrefs, and the two document
signals `inferType` reads (`og:type` and the `article:published_time` meta
tag).  `robots.allows` is likewise an oracle `Str → Bool`.  An exception
escaping the `while` loop is modelled as `Except.error`. -/

/-- `MAX_PAGES` (line 226). -/
def MAX_PAGES : Nat := 120

/-- `MAX_DEPTH` (line 225). -/
def MAX_DEPTH : Rat := 4

/-- `hostKey`: strip one leading `www.` (case-insensitively), lowercase. -/
def stripWww (v : Str) : Str :=
  if lowerStr (v.take 4) = strL "www." then v.drop 4 else v

def hostKey (v : Str) : Str := lowerStr (stripWww v)

/-- `isSameHost` compares the host keys of the two hostnames. -/
def isSameHost (root cand : JsUrl) : Bool :=
  hostKey root.host == hostKey cand.host

/-- `STATIC_EXTENSIONS` (lines 228-246). -/
def STATIC_EXTENSIONS : List Str :=
  [strL ".jpg", strL ".jpeg", strL ".png", strL ".gif", strL ".svg",
   strL ".webp", strL ".ico", strL ".css", strL ".js", strL ".pdf",
   strL ".zip", strL ".mp4", strL ".mp3", strL ".woff", strL ".woff2",
   strL ".ttf", strL ".otf"]

/-- `\b` after a matched word: end of string or a non-word character. -/
def boundaryAfter (s : Str) : Bool :=
  match s with
  | [] => true
  | c :: _ => !isWordC c

/-- One `BLOCKED_SEGMENTS` pattern of the form `/\/(w1|w2|…)\b/i`, applied to
an already lowercased path. -/
def hasBlockedSeg (path : Str) (words : List Str) : Bool :=
  path.tails.any (fun t =>
    match t with
    | '/' :: rest =>
      words.any (fun w => w.isPrefixOf rest && boundaryAfter (rest.drop w.length))
    | _ => false)

/-- `isBlockedPath` (lines 669-675) over `BLOCKED_SEGMENTS` (lines 247-253);
the last pattern carries no `\b`. -/
def isBlockedPath (u : JsUrl) : Bool :=
  let path := lowerStr u.pathname
  STATIC_EXTENSIONS.any (fun ext => ext.isSuffixOf path) ||
  hasBlockedSeg path
    [strL "login", strL "logout", strL "signin", strL "signup",
     strL "register", strL "auth"] ||
  hasBlockedSeg path [strL "admin", strL "dashboard"] ||
  hasBlockedSeg path [strL "account", strL "profile"] ||
  hasBlockedSeg path [strL "cart", strL "checkout"] ||
  ([strL "search", strL "filter", strL "track", strL "query"].any
    (fun w => containsSub path ('/' :: w)))

inductive PageType where
  | homepage | article | product | docs | category
deriving DecidableEq, Repr

/-- `priorityForType` (lines 705-717). -/
def priorityForType : PageType → Rat
  | .homepage => 1
  | .product => 8 / 10
  | .docs => 8 / 10
  | .article => 6 / 10
  | .category => 5 / 10

/-- Document-derived signals consumed by the crawl loop for one fetched page. -/
structure FetchResultM where
  finalUrl : Str
  canonical : Option Str
  links : List Str
  ogType : Option Str
  hasArticleTime : Bool

/-- `inferType` (lines 677-703). -/
def inferType (url : JsUrl) (page : FetchResultM) : PageType :=
  let path := lowerStr url.pathname
  let ogType := page.ogType.map lowerStr
  if path = strL "/" then .homepage
  else if ogType = some (strL "product") || containsSub path (strL "/product") ||
      containsSub path (strL "/pricing") then .product
  else if ogType = some (strL "article") || page.hasArticleTime then .article
  else if containsSub path (strL "/blog") || containsSub path (strL "/news") then
    .article
  else if containsSub path (strL "/docs") ||
      containsSub path (strL "/documentation") ||
      containsSub path (strL "/guide") then .docs
  else if containsSub path (strL "/category") ||
      containsSub path (strL "/collections") ||
      containsSub path (strL "/topics") then .category
  else .category

/-- `buildAiUrl` (lines 517-520); the ternary on `pathname` is the identity. -/
def buildAiUrl (url : JsUrl) (domain : Str) : Str :=
  strL "https://ai." ++ domain ++ url.pathname

structure QueueItem where
  url : Str
  depth : Nat
deriving DecidableEq, Repr

structure PageEntry where
  url : Str
  ai_url : Str
  ptype : PageType
  priority : Rat
deriving DecidableEq, Repr

/-- An error escaping the crawl loop (caught only by the route-level
`catch`, which turns it into a 400 response). -/
inductive CrawlErr where
  | normFail (input : Str)
  | urlFail (input : Str)
deriving DecidableEq, Repr

structure CrawlCfg where
  root : JsUrl
  siteDomain : Str
  robots : Str → Bool
  fetchO : Str → Option FetchResultM
  depthLimit : Rat

structure CrawlState where
  queue : List QueueItem
  visited : List Str
  recorded : List Str
  pages : List PageEntry

/-- The link-discovery loop (lines 362-384): each href is normalized against
the canonical URL, filtered (same host, blocked path, robots, visited) and
enqueued at `depth + 1`; a failing `normalizeUrl`/`new URL` is caught and the
link skipped. -/
def collectChildren (cfg : CrawlCfg) (visited : List Str) (canonicalUrl : Str)
    (links : List Str) (depth : Nat) : List QueueItem :=
  links.filterMap (fun href =>
    match normalizeUrlE href (some canonicalUrl) with
    | .error _ => none
    | .ok normalizedLink =>
      match parseAbs normalizedLink with
      | none => none
      | some linkUrl =>
        if !isSameHost cfg.root linkUrl then none
        else if isBlockedPath linkUrl then none
        else if !cfg.robots linkUrl.pathname then none
        else if visited.contains normalizedLink then none
        else some ⟨normalizedLink, depth + 1⟩)

inductive StepOut where
  | err (e : CrawlErr)
  | finished (pages : List PageEntry)
  | next (st : CrawlState)

/-- One iteration of the `while` loop (lines 315-387).  The guard
(`queue.length && pages.length < MAX_PAGES`) finishes the crawl; otherwise
one queue item is dequeued and processed.  `normalizeUrl` on the dequeued
URL (line 317) and on the page's canonical (line 340) are outside any
per-page `try`, so their failure aborts the crawl. -/
def crawlStep (cfg : CrawlCfg) (st : CrawlState) : StepOut :=
  match st.queue with
  | [] => .finished st.pages
  | current :: rest =>
    if st.pages.length < MAX_PAGES then
      match normalizeUrlE current.url none with
      | .error _ => .err (.normFail current.url)
      | .ok normalizedCurrent =>
        if st.visited.contains normalizedCurrent then
          .next { st with queue := rest }
        else
          let visited := st.visited ++ [normalizedCurrent]
          match parseAbs normalizedCurrent with
          | none => .err (.urlFail normalizedCurrent)
          | some currentUrl =>
            if !isSameHost cfg.root currentUrl then
              .next { st with queue := rest, visited := visited }
            else if !cfg.robots currentUrl.pathname then
              .next { st with queue := rest, visited := visited }
            else if isBlockedPath currentUrl then
              .next { st with queue := rest, visited := visited }
            else
              match cfg.fetchO normalizedCurrent with
              | none => .next { st with queue := rest, visited := visited }
              | some page =>
                match normalizeUrlE (page.canonical.getD page.finalUrl) none with
                | .error _ =>
                  .err (.normFail (page.canonical.getD page.finalUrl))
                | .ok canonicalUrl =>
                  match parseAbs canonicalUrl with
                  | none => .err (.urlFail canonicalUrl)
                  | some canonical =>
                    if !isSameHost cfg.root canonical then
                      .next { st with queue := rest, visited := visited }
                    else if isBlockedPath canonical ||
                        !cfg.robots canonical.pathname then
                      .next { st with queue := rest, visited := visited }
                    else
                      let recOut :=
                        if st.recorded.contains canonicalUrl then
                          (st.pages, st.recorded)
                        else
                          let pageType := inferType canonical page
                          (st.pages ++
                            [⟨canonicalUrl, buildAiUrl canonical cfg.siteDomain,
                              pageType, priorityForType pageType⟩],
                           st.recorded ++ [canonicalUrl])
                      let newItems :=
                        if (current.depth : Rat) < cfg.depthLimit then
                          collectChildren cfg visited canonicalUrl
                            page.links current.depth
                        else []
                      .next { queue := rest ++ newItems, visited := visited,
                              recorded := recOut.2, pages := recOut.1 }
    else .finished st.pages

/-- The crawl loop, fuel-indexed: the source's `while` loop may diverge on an
unbounded link graph, so the model exposes every finite prefix of the run.
Exhausted fuel returns the pages collected so far. -/
def crawlLoop (cfg : CrawlCfg) : Nat → CrawlState → Except CrawlErr (List PageEntry)
  | 0, st => .ok st.pages
  | fuel + 1, st =>
    match crawlStep cfg st with
    | .err e => .error e
    | .finished pages => .ok pages
    | .next st2 => crawlLoop cfg fuel st2

/-- A JavaScript number as produced by `Number(...)`: `NaN` or a rational. -/
inductive JsNum where
  | nan
  | num (v : Rat)
deriving DecidableEq, Repr

/-- `clamp` (lines 808-813): `NaN` collapses to the minimum, otherwise
`Math.min(Math.max(value, min), max)`. -/
def clampJs (value : JsNum) (lo hi : Rat) : Rat :=
  match value with
  | .nan => lo
  | .num v => min (max v lo) hi

/-- `depthSetting = Number(payload?.maxDepth ?? 3)` (line 290): an absent
`maxDepth` defaults to `Number(3) = 3`; a present one contributes its own
`Number(...)` conversion, which may be `NaN`. -/
def depthSettingOf (maxDepth : Option JsNum) : JsNum :=
  maxDepth.getD (.num 3)

/-- The crawl entry point (`POST`, lines 286-426) up to the crawl loop:
parse and normalize the root, clamp the depth, derive the site domain, run
the loop from the singleton queue `[{url: normalizedRoot, depth: 0}]`.
A root that fails to normalize/parse is the crawl-level error. -/
def crawlPOST (fetchO : Str → Option FetchResultM) (robots : Str → Bool)
    (inputUrl : Str) (maxDepth : Option JsNum) (fuel : Nat) :
    Except CrawlErr (List PageEntry) :=
  match normalizeUrlE inputUrl none with
  | .error _ => .error (.normFail inputUrl)
  | .ok normalizedRoot =>
    match parseAbs normalizedRoot with
    | none => .error (.urlFail normalizedRoot)
    | some root =>
      let depthLimit := clampJs (depthSettingOf maxDepth) 1 MAX_DEPTH
      let siteDomain := stripWww root.host
      crawlLoop
        { root := root, siteDomain := siteDomain, robots := robots,
          fetchO := fetchO, depthLimit := depthLimit }
        fuel
        { queue := [⟨normalizedRoot, 0⟩], visited := [], recorded := [],
          pages := [] }

theorem collectChildren_spec {cfg : CrawlCfg} {vis : List Str} {canon : Str}
    {links : List Str} {d : Nat} {it : QueueItem}
    (h : it ∈ collectChildren cfg vis canon links d) :
    it.depth = d + 1 ∧ ∃ href, href ∈ links ∧
      normalizeUrlE href (some canon) = .ok it.url := by
  unfold collectChildren at h
  rw [List.mem_filterMap] at h
  obtain ⟨href, hmem, hf⟩ := h
  refine ?_
  split at hf
  · exact absurd hf (by simp)
  case _ normalizedLink hnorm =>
    split at hf
    · exact absurd hf (by simp)
    case _ linkUrl hparse =>
      split at hf
      · exact absurd hf (by simp)
      · split at hf
        · exact absurd hf (by simp)
        · split at hf
          · exact absurd hf (by simp)
          · split at hf
            · exact absurd hf (by simp)
            · injection hf with hf
              rw [← hf]
              exact ⟨rfl, href, hmem, hnorm⟩

theorem crawlStep_next_spec {cfg : CrawlCfg} {st st2 : CrawlState}
    (h : crawlStep cfg st = .next st2) :
    ∃ cur rest, st.queue = cur :: rest ∧ st.pages.length < MAX_PAGES ∧
      ∃ newItems,
        st2.queue = rest ++ newItems ∧
        (∀ it ∈ newItems, it.depth = cur.depth + 1 ∧
          ∃ href base, normalizeUrlE href (some base) = .ok it.url) ∧
        (newItems ≠ [] → (cur.depth : Rat) < cfg.depthLimit) ∧
        ((st2.pages = st.pages ∧ st2.recorded = st.recorded) ∨
          (∃ u page canonicalUrl,
            cfg.fetchO u = some page ∧
            normalizeUrlE (page.canonical.getD page.finalUrl) none =
              .ok canonicalUrl ∧
            st.recorded.contains canonicalUrl = false ∧
            (∃ e : PageEntry, e.url = canonicalUrl ∧
              st2.pages = st.pages ++ [e]) ∧
            st2.recorded = st.recorded ++ [canonicalUrl])) := by
  unfold crawlStep at h
  split at h
  · exact absurd h (by simp)
  case _ current rest hq =>
    split at h
    case _ hlt =>
      refine ⟨current, rest, hq, hlt, ?_⟩
      split at h
      · exact absurd h (by simp)
      case _ normalizedCurrent hnorm =>
        split at h
        · -- already visited
          injection h with h
          rw [← h]
          exact ⟨[], by simp, by simp, by simp, Or.inl ⟨rfl, rfl⟩⟩
        · split at h
          · exact absurd h (by simp)
          case _ currentUrl hparse =>
            split at h
            · injection h with h
              rw [← h]
              exact ⟨[], by simp, by simp, by simp, Or.inl ⟨rfl, rfl⟩⟩
            · split at h
              · injection h with h
                rw [← h]
                exact ⟨[], by simp, by simp, by simp, Or.inl ⟨rfl, rfl⟩⟩
              · split at h
                · injection h with h
                  rw [← h]
                  exact ⟨[], by simp, by simp, by simp, Or.inl ⟨rfl, rfl⟩⟩
                · split at h
                  · injection h with h
                    rw [← h]
                    exact ⟨[], by simp, by simp, by simp, Or.inl ⟨rfl, rfl⟩⟩
                  case _ page hfetch =>
                    split at h
                    · exact absurd h (by simp)
                    case _ canonicalUrl hcanon =>
                      split at h
                      · exact absurd h (by simp)
                      case _ canonical hcparse =>
                        split at h
                        · injection h with h
                          rw [← h]
                          exact ⟨[], by simp, by simp, by simp,
                            Or.inl ⟨rfl, rfl⟩⟩
                        · split at h
                          · injection h with h
                            rw [← h]
                            exact ⟨[], by simp, by simp, by simp,
                              Or.inl ⟨rfl, rfl⟩⟩
                          · injection h with h
                            rw [← h]
                            dsimp only
                            refine ⟨_, rfl, ?_, ?_, ?_⟩
                            · intro it hit
                              split at hit
                              case _ hd =>
                                obtain ⟨h1, href, _, hnl⟩ :=
                                  collectChildren_spec hit
                                exact ⟨h1, href, canonicalUrl, hnl⟩
                              · simp at hit
                            · intro hne
                              by_cases hd : (current.depth : Rat) < cfg.depthLimit
                              · exact hd
                              · rw [if_neg hd] at hne
                                exact absurd rfl hne
                            · split
                              case _ hrec =>
                                exact Or.inl ⟨rfl, rfl⟩
                              case _ hrec =>
                                refine Or.inr ⟨normalizedCurrent, page,
                                  canonicalUrl, hfetch, hcanon,
                                  by simpa using hrec, ⟨_, rfl, rfl⟩, rfl⟩
    · exact absurd h (by simp)

/-- Every normalizer output parses back (`new URL(normalizeUrl(x))` cannot
throw). -/
theorem normalOutput_parse {i : Str} {b : Option Str} {t : Str}
    (h : normalizeUrlE i b = .ok t) : ∃ u, parseAbs t = some u := by
  obtain ⟨u, hwf, _, _, _, _, ht⟩ := normalizeUrlE_ok_normal h
  exact ⟨u, by rw [ht]; exact parse_serialize hwf⟩

/-- Queue invariant: every queued URL is a fixed point of crawl-mode
normalization (it was produced by it). -/
def QueueNF (st : CrawlState) : Prop :=
  ∀ q ∈ st.queue, normalizeUrlE q.url none = .ok q.url

/-- Oracle-side hypothesis: the canonical URL (or final URL) of every
fetchable page normalizes successfully. -/
def CanonOk (fetchO : Str → Option FetchResultM) : Prop :=
  ∀ u r, fetchO u = some r →
    ∃ t, normalizeUrlE (r.canonical.getD r.finalUrl) none = .ok t

theorem crawlStep_finished_spec {cfg : CrawlCfg} {st : CrawlState}
    {p : List PageEntry} (h : crawlStep cfg st = .finished p) : p = st.pages := by
  unfold crawlStep at h
  split at h
  · injection h with h
    exact h.symm
  · split at h
    · split at h
      · exact absurd h (by simp)
      · split at h
        · exact absurd h (by simp)
        · split at h
          · exact absurd h (by simp)
          · split at h
            · exact absurd h (by simp)
            · split at h
              · exact absurd h (by simp)
              · split at h
                · exact absurd h (by simp)
                · split at h
                  · exact absurd h (by simp)
                  · split at h
                    · exact absurd h (by simp)
                    · split at h
                      · exact absurd h (by simp)
                      · split at h
                        · exact absurd h (by simp)
                        · split at h
                          · exact absurd h (by simp)
                          · exact absurd h (by simp)
    · injection h with h
      exact h.symm

theorem crawlStep_err_spec {cfg : CrawlCfg} {st : CrawlState} {e : CrawlErr}
    (h : crawlStep cfg st = .err e) :
    ∃ cur rest, st.queue = cur :: rest ∧
      ((normalizeUrlE cur.url none = .error ()) ∨
       (∃ ncur, normalizeUrlE cur.url none = .ok ncur ∧ parseAbs ncur = none) ∨
       (∃ ncur page, normalizeUrlE cur.url none = .ok ncur ∧
          cfg.fetchO ncur = some page ∧
          ((normalizeUrlE (page.canonical.getD page.finalUrl) none =
              .error ()) ∨
           (∃ cu, normalizeUrlE (page.canonical.getD page.finalUrl) none =
              .ok cu ∧ parseAbs cu = none)))) := by
  unfold crawlStep at h
  split at h
  · exact absurd h (by simp)
  case _ current rest hq =>
    refine ⟨current, rest, hq, ?_⟩
    split at h
    · split at h
      case _ herr =>
        refine Or.inl ?_
        rw [herr]
      case _ ncur hnorm =>
        split at h
        · exact absurd h (by simp)
        · split at h
          case _ hparse =>
            exact Or.inr (Or.inl ⟨ncur, hnorm, hparse⟩)
          case _ currentUrl hparse =>
            split at h
            · exact absurd h (by simp)
            · split at h
              · exact absurd h (by simp)
              · split at h
                · exact absurd h (by simp)
                · split at h
                  · exact absurd h (by simp)
                  case _ page hfetch =>
                    split at h
                    case _ herr2 =>
                      refine Or.inr (Or.inr ⟨ncur, page, hnorm, hfetch,
                        Or.inl ?_⟩)
                      rw [herr2]
                    case _ cu hcanon =>
                      split at h
                      case _ hcp =>
                        exact Or.inr (Or.inr ⟨ncur, page, hnorm, hfetch,
                          Or.inr ⟨cu, hcanon, hcp⟩⟩)
                      · split at h
                        · exact absurd h (by simp)
                        · split at h
                          · exact absurd h (by simp)
                          · exact absurd h (by simp)
    · exact absurd h (by simp)

theorem crawlStep_preserves_NF {cfg : CrawlCfg} {st st2 : CrawlState}
    (h : crawlStep cfg st = .next st2) (hnf : QueueNF st) : QueueNF st2 := by
  obtain ⟨cur, rest, hq, _, newItems, hq2, hnew, _, _⟩ := crawlStep_next_spec h
  intro q hmem
  rw [hq2, List.mem_append] at hmem
  rcases hmem with hmem | hmem
  · exact hnf q (by rw [hq]; exact List.mem_cons_of_mem _ hmem)
  · obtain ⟨_, href, base, hok⟩ := hnew q hmem
    exact normalizeUrlE_idem hok none

theorem crawlStep_total {cfg : CrawlCfg} {st : CrawlState}
    (hnf : QueueNF st) (hc : CanonOk cfg.fetchO) :
    (∃ p, crawlStep cfg st = .finished p) ∨
      (∃ st2, crawlStep cfg st = .next st2) := by
  rcases hstep : crawlStep cfg st with e | p | st2
  · exfalso
    obtain ⟨cur, rest, hq, hbad⟩ := crawlStep_err_spec hstep
    have hcur : normalizeUrlE cur.url none = .ok cur.url :=
      hnf cur (by rw [hq]; exact List.mem_cons_self _ _)
    rcases hbad with hbad | ⟨ncur, hok, hparse⟩ | ⟨ncur, page, hok, hfetch, hbad⟩
    · rw [hcur] at hbad
      exact absurd hbad (by simp)
    · rw [hcur] at hok
      injection hok with hok
      obtain ⟨u, hu⟩ := normalOutput_parse hcur
      rw [← hok] at hparse
      rw [hu] at hparse
      exact absurd hparse (by simp)
    · obtain ⟨t, ht⟩ := hc _ _ hfetch
      rcases hbad with hbad | ⟨cu, hcanon, hcp⟩
      · rw [ht] at hbad
        exact absurd hbad (by simp)
      · rw [ht] at hcanon
        injection hcanon with hcanon
        obtain ⟨u, hu⟩ := normalOutput_parse ht
        rw [← hcanon] at hcp
        rw [hu] at hcp
        exact absurd hcp (by simp)
  · exact Or.inl ⟨p, rfl⟩
  · exact Or.inr ⟨st2, rfl⟩

theorem crawlLoop_ok_of {cfg : CrawlCfg} (hc : CanonOk cfg.fetchO) :
    ∀ (fuel : Nat) (st : CrawlState), QueueNF st →
      ∃ out, crawlLoop cfg fuel st = .ok out := by
  intro fuel
  induction fuel with
  | zero => exact fun st _ => ⟨st.pages, rfl⟩
  | succ n ih =>
    intro st hnf
    rcases crawlStep_total hnf hc with ⟨p, hp⟩ | ⟨st2, hst2⟩
    · exact ⟨p, by unfold crawlLoop; rw [hp]⟩
    · obtain ⟨out, hout⟩ := ih st2 (crawlStep_preserves_NF hst2 hnf)
      exact ⟨out, by unfold crawlLoop; rw [hst2]; exact hout⟩

theorem crawlLoop_pages_le {cfg : CrawlCfg} :
    ∀ (fuel : Nat) (st : CrawlState), st.pages.length ≤ MAX_PAGES →
      ∀ out, crawlLoop cfg fuel st = .ok out → out.length ≤ MAX_PAGES := by
  intro fuel
  induction fuel with
  | zero =>
    intro st hle out h
    injection h with h
    rw [← h]
    exact hle
  | succ n ih =>
    intro st hle out h
    unfold crawlLoop at h
    rcases hstep : crawlStep cfg st with e | p | st2 <;> rw [hstep] at h
    · exact absurd h (by simp)
    · injection h with h
      rw [← h, crawlStep_finished_spec hstep]
      exact hle
    · obtain ⟨cur, rest, _, hlt, newItems, _, _, _, hpg⟩ :=
        crawlStep_next_spec hstep
      refine ih st2 ?_ out h
      rcases hpg with ⟨hsame, _⟩ | ⟨u, page, cu, _, _, _, ⟨e2, _, happ⟩, _⟩
      · rw [hsame]
        exact hle
      · rw [happ, List.length_append]
        simpa using hlt

/-- The recording invariant: `recorded` is exactly the list of recorded page
URLs, without duplicates, and every recorded URL is the normalized canonical
of some fetched page. -/
def RecInv (fetchO : Str → Option FetchResultM) (st : CrawlState) : Prop :=
  st.recorded = st.pages.map (fun p => p.url) ∧
  (st.pages.map (fun p => p.url)).Nodup ∧
  ∀ p ∈ st.pages, ∃ u r, fetchO u = some r ∧
    normalizeUrlE (r.canonical.getD r.finalUrl) none = .ok p.url

theorem crawlStep_preserves_rec {cfg : CrawlCfg} {st st2 : CrawlState}
    (h : crawlStep cfg st = .next st2) (hinv : RecInv cfg.fetchO st) :
    RecInv cfg.fetchO st2 := by
  obtain ⟨hrec, hnd, hwit⟩ := hinv
  obtain ⟨cur, rest, hq, _, newItems, _, _, _, hpg⟩ := crawlStep_next_spec h
  rcases hpg with ⟨hsame, hrsame⟩ | ⟨u, page, cu, hfetch, hcanon, hcont,
    ⟨e, heq, happ⟩, hrapp⟩
  · exact ⟨by rw [hsame, hrsame, hrec], by rw [hsame]; exact hnd,
      by rw [hsame]; exact hwit⟩
  · have hnotmem : cu ∉ st.pages.map (fun p => p.url) := by
      rw [← hrec]
      simpa using hcont
    refine ⟨?_, ?_, ?_⟩
    · rw [happ, hrapp, hrec, List.map_append, List.map_cons, heq]
      rfl
    · rw [happ, List.map_append, List.map_cons, heq]
      simpa [List.nodup_append, hnd] using hnotmem
    · intro p hp
      rw [happ, List.mem_append] at hp
      rcases hp with hp | hp
      · exact hwit p hp
      · rw [List.mem_singleton] at hp
        subst hp
        exact ⟨u, page, hfetch, by rw [heq]; exact hcanon⟩

theorem crawlLoop_rec {cfg : CrawlCfg} :
    ∀ (fuel : Nat) (st : CrawlState), RecInv cfg.fetchO st →
      ∀ out, crawlLoop cfg fuel st = .ok out →
        (out.map (fun p => p.url)).Nodup ∧
        ∀ p ∈ out, ∃ u r, cfg.fetchO u = some r ∧
          normalizeUrlE (r.canonical.getD r.finalUrl) none = .ok p.url := by
  intro fuel
  induction fuel with
  | zero =>
    intro st hinv out h
    injection h with h
    rw [← h]
    exact ⟨hinv.2.1, hinv.2.2⟩
  | succ n ih =>
    intro st hinv out h
    unfold crawlLoop at h
    rcases hstep : crawlStep cfg st with e | p | st2 <;> rw [hstep] at h
    · exact absurd h (by simp)
    · injection h with h
      rw [← h, crawlStep_finished_spec hstep]
      exact ⟨hinv.2.1, hinv.2.2⟩
    · exact ih st2 (crawlStep_preserves_rec hstep hinv) out h

/-! ## Concrete crawl scenarios used as witnesses -/

def exRoot : Str := strL "example.com"
def exRootNorm : Str := strL "https://example.com/"
def exA : Str := strL "https://example.com/a"
def exB : Str := strL "https://example.com/b"
def exC : Str := strL "https://example.com/c"

/-- A permissive robots checker (`defaultRobots`). -/
def robotsAll : Str → Bool := fun _ => true

/-- A three-page site: the root links to `/a` and `/b`, and both of those
pages declare the same canonical `/c`. -/
def oracleTwoToOne : Str → Option FetchResultM := fun u =>
  if u = exRootNorm then
    some ⟨exRootNorm, none, [strL "/a", strL "/b"], none, false⟩
  else if u = exA then some ⟨exA, some exC, [], none, false⟩
  else if u = exB then some ⟨exB, some exC, [], none, false⟩
  else none

/-- A site whose root page carries an empty `<link rel=canonical>` href
(`collectCanonical` returns the trimmed attribute, so an empty attribute
yields `""`, which `??` keeps): the crawl loop feeds it to `normalizeUrl`
without a base (line 340), and `new URL("https://" + "")` throws on the
empty host. -/
def oracleBadCanon : Str → Option FetchResultM := fun u =>
  if u = exRootNorm then some ⟨exRootNorm, some (strL ""), [], none, false⟩
  else none

/-- A site whose root page carries a relative `<link rel=canonical>` href:
`new URL("https:///about")` does NOT throw (surplus slashes are skipped and
`about` becomes the host), so the page merely fails the same-host check and
is skipped. -/
def oracleRelCanon : Str → Option FetchResultM := fun u =>
  if u = exRootNorm then some ⟨exRootNorm, some (strL "/about"), [], none, false⟩
  else none

def exRootU : JsUrl := ⟨strL "https", strL "example.com", [], ['/'], [], []⟩

def cfg0 : CrawlCfg :=
  ⟨exRootU, strL "example.com", robotsAll, oracleTwoToOne,
    clampJs (.num 3) 1 MAX_DEPTH⟩

def st0 : CrawlState := ⟨[⟨exRootNorm, 0⟩], [], [], []⟩

/-- The state after one crawl step from `st0` under `cfg0`. -/
def st1 : CrawlState :=
  ⟨[⟨exA, 1⟩, ⟨exB, 1⟩], [exRootNorm], [exRootNorm],
   [⟨exRootNorm, strL "https://ai.example.com/", .homepage, 1⟩]⟩

/-- The pages the demo crawl records: one entry for the root, and exactly one
entry for the shared canonical `/c`. -/
def demoPages : List PageEntry :=
  [⟨exRootNorm, strL "https://ai.example.com/", .homepage, 1⟩,
   ⟨exC, strL "https://ai.example.com/c", .category, 5 / 10⟩]

/-! ## Claim C1 -/

/-- C1 (counterexample): the claim "all per-page failures during traversal
are absorbed and the crawl never fails outright after the root has been
parsed — including a fetched page whose canonical href fails to normalize"
is false.  The root `example.com` parses, yet a crawl in which the root
page's `<link rel=canonical>` href is the empty string aborts: line 340
calls `normalizeUrl(page.canonical ?? page.finalUrl)` with no base and
outside any per-page `try`; `new URL("https://" + "")` throws on the empty
host, the throw escapes to the route-level `catch`, and the whole invocation
fails.  By contrast a RELATIVE canonical href such as `/about` does not
abort: `new URL("https:///about")` skips the surplus slash and parses host
`about`, so the page is only skipped by the same-host check and the crawl
returns the empty result. -/
theorem c1_counterexample :
    (normalizeUrlE exRoot none).isOk = true ∧
    crawlPOST oracleBadCanon robotsAll exRoot none 5 =
      .error (.normFail (strL "")) ∧
    crawlPOST oracleRelCanon robotsAll exRoot none 5 = .ok [] := by
  exact ⟨by decide, by rfl, by rfl⟩

/-- C1 (amended): per-page failures — unreachable pages, filtered pages,
malformed links — are absorbed and only reduce the result set, and the crawl
returns a (possibly empty) pages result, PROVIDED every fetched page's
canonical href (or final URL) itself normalizes; a canonical that fails to
normalize (such as the empty string, where `new URL("https://")` throws on
the empty host) escapes the loop and fails the whole crawl (see
`c1_counterexample`). -/
theorem c1_crawl_failures_absorbed
    (fetchO : Str → Option FetchResultM) (robots : Str → Bool)
    (inputUrl : Str) (maxDepth : Option JsNum) (fuel : Nat)
    (hc : CanonOk fetchO)
    (hroot : (normalizeUrlE inputUrl none).isOk = true) :
    ∃ pages, crawlPOST fetchO robots inputUrl maxDepth fuel = .ok pages := by
  obtain ⟨t, ht⟩ : ∃ t, normalizeUrlE inputUrl none = .ok t := by
    cases h : normalizeUrlE inputUrl none with
    | error e => rw [h] at hroot; exact absurd hroot (by simp [Except.isOk, Except.toBool])
    | ok t => exact ⟨t, rfl⟩
  unfold crawlPOST
  rw [ht]
  dsimp only
  obtain ⟨u, hu⟩ := normalOutput_parse ht
  rw [hu]
  dsimp only
  exact crawlLoop_ok_of hc fuel _
    (fun q hq => by
      rw [List.mem_singleton] at hq
      subst hq
      exact normalizeUrlE_idem ht none)

/-- C1 witness: a crawl whose fetches all fail still returns a result (the
empty pages list). -/
theorem c1_witness :
    ∃ pages, crawlPOST (fun _ => none) robotsAll exRoot none 3 = .ok pages :=
  c1_crawl_failures_absorbed (fun _ => none) robotsAll exRoot none 3
    (fun u r h => by simp at h) (by decide)

/-! ## Claim C2 -/

/-- C2: the page budget is respected.  Any single crawl step keeps
`pages.length ≤ 120` (the loop guard `pages.length < MAX_PAGES` precedes the
single possible `pages.push`), and every result returned by the crawl entry
point has at most `MAX_PAGES = 120` entries. -/
theorem c2_page_budget :
    (∀ (cfg : CrawlCfg) (st st2 : CrawlState), crawlStep cfg st = .next st2 →
      st.pages.length ≤ MAX_PAGES → st2.pages.length ≤ MAX_PAGES) ∧
    (∀ (fetchO : Str → Option FetchResultM) (robots : Str → Bool)
      (inputUrl : Str) (maxDepth : Option JsNum) (fuel : Nat)
      (out : List PageEntry),
      crawlPOST fetchO robots inputUrl maxDepth fuel = .ok out →
      out.length ≤ MAX_PAGES) := by
  constructor
  · intro cfg st st2 h hle
    obtain ⟨cur, rest, _, hlt, newItems, _, _, _, hpg⟩ := crawlStep_next_spec h
    rcases hpg with ⟨hsame, _⟩ | ⟨u, page, cu, _, _, _, ⟨e, _, happ⟩, _⟩
    · rw [hsame]
      exact hle
    · rw [happ, List.length_append]
      simpa using hlt
  · intro fetchO robots inputUrl maxDepth fuel out h
    unfold crawlPOST at h
    split at h
    · exact absurd h (by simp)
    · split at h
      · exact absurd h (by simp)
      · exact crawlLoop_pages_le fuel _ (by simp) out h

/-- C2 witness: the demo crawl returns `demoPages`, which respects the
budget. -/
theorem c2_witness :
    crawlPOST oracleTwoToOne robotsAll exRoot none 10 = .ok demoPages ∧
    demoPages.length ≤ MAX_PAGES :=
  ⟨by rfl, c2_page_budget.2 oracleTwoToOne robotsAll exRoot none 10
    demoPages (by rfl)⟩

/-! ## Claim C3 -/

/-- The configuration `crawlPOST` builds for the demo site when the request
carries `maxDepth = 0`: `clamp(Number(0), 1, 4)` floors the limit at 1. -/
def cfgD0 : CrawlCfg :=
  ⟨exRootU, strL "example.com", robotsAll, oracleTwoToOne,
    clampJs (depthSettingOf (some (.num 0))) 1 MAX_DEPTH⟩

/-- C3 (counterexample): the claim quantifies over every requested
`maxDepth` and asserts that no enqueued item has depth greater than
`maxDepth`.  At requested `maxDepth = 0` the clamp floors the depth limit at
1, so the first step of the demo crawl enqueues the child `/a` at depth 1,
which exceeds the requested bound 0. -/
theorem c3_counterexample :
    cfgD0.depthLimit = 1 ∧
    crawlStep cfgD0 st0 = .next st1 ∧
    (⟨exA, 1⟩ : QueueItem) ∈ st1.queue ∧
    ¬ (((⟨exA, 1⟩ : QueueItem).depth : Rat) ≤ 0) := by
  exact ⟨by rfl, by rfl, by decide, by norm_num⟩

/-- C3 (amended): the depth bound is respected for every requested integer
`maxDepth = n ≥ 1` (for `n ≤ 0` the clamp floors the limit at 1 and depth-1
children are still enqueued, see `c3_counterexample`).  For such `n` the
clamped limit never exceeds `n`, and a crawl step
from a state whose frontier respects the clamped limit produces a frontier
that still respects it; moreover the step dequeues one item and enqueues
only children at depth `cur.depth + 1`, and only when `cur.depth` is
strictly below the clamped limit.  Since fetching happens only for the
dequeued head of the frontier, no fetch occurs for an item whose depth
exceeds the clamped limit. -/
theorem c3_depth_bound (n : Nat) (hn : 1 ≤ n) (cfg : CrawlCfg)
    (hL : cfg.depthLimit = clampJs (.num n) 1 MAX_DEPTH) :
    cfg.depthLimit ≤ (n : Rat) ∧
    ∀ st st2, crawlStep cfg st = .next st2 →
      (∀ q ∈ st.queue, (q.depth : Rat) ≤ cfg.depthLimit) →
      ((∀ q ∈ st2.queue, (q.depth : Rat) ≤ cfg.depthLimit) ∧
       ∃ cur rest newItems, st.queue = cur :: rest ∧
         st2.queue = rest ++ newItems ∧
         (∀ it ∈ newItems, it.depth = cur.depth + 1) ∧
         (newItems ≠ [] → (cur.depth : Rat) < cfg.depthLimit)) := by
  have hcast : (1 : Rat) ≤ (n : Rat) := by
    exact_mod_cast hn
  have hLval : cfg.depthLimit = ((min n 4 : Nat) : Rat) := by
    rw [hL]
    unfold clampJs MAX_DEPTH
    dsimp only
    rw [max_eq_left hcast]
    push_cast
    rfl
  constructor
  · rw [hLval]
    have : min n 4 ≤ n := min_le_left n 4
    exact_mod_cast this
  · intro st st2 h hq
    obtain ⟨cur, rest, hqeq, _, newItems, hq2, hnew, hgate, _⟩ :=
      crawlStep_next_spec h
    refine ⟨?_, cur, rest, newItems, hqeq, hq2,
      fun it hit => (hnew it hit).1, hgate⟩
    intro q hmem
    rw [hq2, List.mem_append] at hmem
    rcases hmem with hmem | hmem
    · exact hq q (by rw [hqeq]; exact List.mem_cons_of_mem _ hmem)
    · have hd : q.depth = cur.depth + 1 := (hnew q hmem).1
      have hlt : (cur.depth : Rat) < cfg.depthLimit :=
        hgate (by intro hnil; rw [hnil] at hmem; simp at hmem)
      rw [hLval] at hlt ⊢
      have hlt2 : cur.depth < min n 4 := by exact_mod_cast hlt
      have : q.depth ≤ min n 4 := by omega
      exact_mod_cast this

/-- C3 witness: in the demo crawl (requested depth 3), the clamped limit is
at most 3 and the children enqueued by the first step sit at depth 1, within
the limit. -/
theorem c3_witness :
    cfg0.depthLimit ≤ (3 : Rat) ∧
    ((⟨exA, 1⟩ : QueueItem).depth : Rat) ≤ cfg0.depthLimit := by
  have h := c3_depth_bound 3 (by decide) cfg0 rfl
  refine ⟨h.1, ?_⟩
  have h2 := (h.2 st0 st1 (by rfl) (by decide)).1
  exact h2 ⟨exA, 1⟩ (by decide)

/-! ## Claim C4 -/

/-- C4: one record per canonical.  In every successful crawl result the
recorded URLs are pairwise distinct — so when two distinct dequeued URLs
resolve to the same canonical, the result contains exactly one record for
that canonical — and each record's `url` field is the crawl-normalized
canonical (`<link rel=canonical>` href, or the final fetched URL when the
tag is absent) of some fetched page, not the dequeued URL as such. -/
theorem c4_one_record_per_canonical
    (fetchO : Str → Option FetchResultM) (robots : Str → Bool)
    (inputUrl : Str) (maxDepth : Option JsNum) (fuel : Nat)
    (out : List PageEntry)
    (h : crawlPOST fetchO robots inputUrl maxDepth fuel = .ok out) :
    (out.map (fun p => p.url)).Nodup ∧
    ∀ p ∈ out, ∃ u r, fetchO u = some r ∧
      normalizeUrlE (r.canonical.getD r.finalUrl) none = .ok p.url := by
  unfold crawlPOST at h
  split at h
  · exact absurd h (by simp)
  · split at h
    · exact absurd h (by simp)
    · exact crawlLoop_rec fuel _ ⟨rfl, by simp, by simp⟩ out h

/-- C4 witness: the demo crawl dequeues both `/a` and `/b`, which share the
canonical `/c`; the result holds exactly one `/c` record and its `url` is
the canonical, and the recorded URLs are duplicate-free. -/
theorem c4_witness :
    crawlPOST oracleTwoToOne robotsAll exRoot none 10 = .ok demoPages ∧
    (demoPages.map (fun p => p.url)).Nodup := by
  have heq : crawlPOST oracleTwoToOne robotsAll exRoot none 10 =
      .ok demoPages := by rfl
  exact ⟨heq, (c4_one_record_per_canonical oracleTwoToOne robotsAll exRoot
    none 10 demoPages heq).1⟩

/-! ## Claim C5 -/

/-- C5: URL normalization is idempotent in both modes.  Whenever the
crawl-mode `normalizeUrl` (drops query and fragment, strips trailing
slashes) succeeds, re-normalizing its output returns it unchanged, and
likewise for the conservative extraction-mode `normalizeUrl` (keeps the
query, drops the fragment). -/
theorem c5_normalize_idempotent :
    (∀ (i : Str) (b : Option Str) (t : Str),
      normalizeUrlE i b = .ok t → normalizeUrlE t none = .ok t) ∧
    (∀ (i t : Str), normalizeUrlCons i = .ok t → normalizeUrlCons t = .ok t) :=
  ⟨fun _ _ _ h => normalizeUrlE_idem h none, fun _ _ h => normalizeUrlCons_idem h⟩

/-- C5 witness: both normalizers at work on concrete inputs; a second pass
is the identity. -/
theorem c5_witness :
    normalizeUrlE (strL "HTTP://WWW.Example.com/a/b/?q=1#f") none =
      .ok (strL "https://www.example.com/a/b") ∧
    normalizeUrlE (strL "https://www.example.com/a/b") none =
      .ok (strL "https://www.example.com/a/b") ∧
    normalizeUrlCons (strL "Example.COM/a/?q=1#f") =
      .ok (strL "https://example.com/a/?q=1") ∧
    normalizeUrlCons (strL "https://example.com/a/?q=1") =
      .ok (strL "https://example.com/a/?q=1") := by
  have h1 : normalizeUrlE (strL "HTTP://WWW.Example.com/a/b/?q=1#f") none =
      .ok (strL "https://www.example.com/a/b") := by rfl
  have h3 : normalizeUrlCons (strL "Example.COM/a/?q=1#f") =
      .ok (strL "https://example.com/a/?q=1") := by rfl
  exact ⟨h1, c5_normalize_idempotent.1 _ none _ h1, h3,
    c5_normalize_idempotent.2 _ _ h3⟩

/-! ## Claim C10 -/

/-- C10: when the request body's `maxDepth` is present but `Number(maxDepth)`
is `NaN` (e.g. a non-numeric string), `clamp` returns its minimum, so the
crawl runs with depth limit 1 rather than the documented default of 3; the
default 3 applies exactly when `maxDepth` is absent (`payload?.maxDepth ?? 3`). -/
theorem c10_nan_maxDepth_clamps_to_min :
    clampJs (depthSettingOf (some .nan)) 1 MAX_DEPTH = 1 ∧
    depthSettingOf none = .num 3 ∧
    clampJs (depthSettingOf none) 1 MAX_DEPTH = 3 := by
  refine ⟨rfl, rfl, ?_⟩
  decide

/-! ## Link extraction (`extractLinks`, lines 472-488) and Claim C8

The anchors of a document are abstracted to the list of their raw `href`
attribute values (after the `?? ""` fallback). -/

/-- The filter predicate of `extractLinks`: note that the `mailto:`/`tel:`
tests use plain `startsWith` (case-sensitive) while only the `javascript:`
test lowercases first. -/
def keepHref (href : Str) : Bool :=
  if href.isEmpty || (strL "#").isPrefixOf href then false
  else if (strL "mailto:").isPrefixOf href || (strL "tel:").isPrefixOf href then
    false
  else if (strL "javascript:").isPrefixOf (lowerStr href) then false
  else true

/-- `extractLinks`: trim each href, keep those passing the filter. -/
def extractLinks (hrefs : List Str) : List Str :=
  (hrefs.map trimStr).filter keepHref

/-- The predicate the claim asserts: a fully case-insensitive scheme check
for all three of `mailto:`, `tel:` and `javascript:`. -/
def keepHrefClaimed (href : Str) : Bool :=
  if href.isEmpty || (strL "#").isPrefixOf href then false
  else if (strL "mailto:").isPrefixOf (lowerStr href) ||
      (strL "tel:").isPrefixOf (lowerStr href) then false
  else if (strL "javascript:").isPrefixOf (lowerStr href) then false
  else true

/-- C8 (counterexample): the claim that the `mailto:`/`tel:` scheme checks
are case-insensitive is false.  An anchor with href `MAILTO:x@y` (or
`Tel:123`) survives `extractLinks` — the source tests
`href.startsWith("mailto:")` and `href.startsWith("tel:")` on the raw
string, lowercasing only for `javascript:` — whereas the claimed
case-insensitive filter would drop it. -/
theorem c8_counterexample :
    extractLinks [strL "MAILTO:x@y", strL "Tel:123"] =
      [strL "MAILTO:x@y", strL "Tel:123"] ∧
    (extractLinks [strL "MAILTO:x@y", strL "Tel:123"]).filter keepHrefClaimed
      = [] := by
  exact ⟨by decide, by decide⟩

/-- C8 (amended): link extraction returns exactly the trimmed hrefs that are
non-empty, do not start with `#`, do not start with the literal lowercase
`mailto:` or `tel:` (a case-sensitive check), and whose lowercasing does not
start with `javascript:` (only this scheme check is case-insensitive). -/
theorem c8_link_filter (hrefs : List Str) (s : Str) :
    s ∈ extractLinks hrefs ↔
      ∃ h ∈ hrefs, trimStr h = s ∧ s ≠ [] ∧
        ¬ (strL "#").isPrefixOf s ∧
        ¬ (strL "mailto:").isPrefixOf s ∧
        ¬ (strL "tel:").isPrefixOf s ∧
        ¬ (strL "javascript:").isPrefixOf (lowerStr s) := by
  unfold extractLinks
  rw [List.mem_filter, List.mem_map]
  constructor
  · rintro ⟨⟨h, hmem, rfl⟩, hkeep⟩
    unfold keepHref at hkeep
    split at hkeep
    · exact absurd hkeep (by simp)
    · split at hkeep
      · exact absurd hkeep (by simp)
      · split at hkeep
        · exact absurd hkeep (by simp)
        · rename_i h1 h2 h3
          simp only [Bool.or_eq_true, not_or] at h1 h2
          refine ⟨h, hmem, rfl, ?_, ?_, ?_, ?_, ?_⟩
          · intro hnil
            exact h1.1 (by rw [hnil]; rfl)
          · intro hpre
            exact h1.2 (by simpa using hpre)
          · intro hpre
            exact h2.1 (by simpa using hpre)
          · intro hpre
            exact h2.2 (by simpa using hpre)
          · intro hpre
            exact h3 (by simpa using hpre)
  · rintro ⟨h, hmem, rfl, hne, hhash, hmail, htel, hjs⟩
    refine ⟨⟨h, hmem, rfl⟩, ?_⟩
    unfold keepHref
    have h1x : ¬((trimStr h).isEmpty ||
        (strL "#").isPrefixOf (trimStr h)) = true := by
      simp only [Bool.or_eq_true, not_or]
      refine ⟨?_, by simpa using hhash⟩
      intro hemp
      exact hne (by simpa [List.isEmpty_iff] using hemp)
    have h2x : ¬((strL "mailto:").isPrefixOf (trimStr h) ||
        (strL "tel:").isPrefixOf (trimStr h)) = true := by
      simp only [Bool.or_eq_true, not_or]
      exact ⟨by simpa using hmail, by simpa using htel⟩
    have h3x : ¬((strL "javascript:").isPrefixOf (lowerStr (trimStr h))) =
        true := by simpa using hjs
    rw [if_neg h1x, if_neg h2x, if_neg h3x]

/-- C8 witness: the amended filter at a concrete anchor list — ordinary and
`#`/`mailto:`/`javascript:`-ish hrefs. -/
theorem c8_witness :
    strL "/about" ∈ extractLinks
      [strL " /about ", strL "#top", strL "mailto:a@b", strL "JavaScript:void(0)"] :=
  (c8_link_filter _ _).mpr
    ⟨strL " /about ", by decide, by decide, by decide, by decide, by decide,
      by decide, by decide⟩

/-! ## Single-page extraction error classification and Claim C6

The network outcome of the single `fetch` is abstracted into an oracle
value: unreachable (the promise rejects), or a response with a status, a
`Content-Type` header and a body size.  `Response.ok` is `200 ≤ status ≤ 299`.
Only the classified failure path matters for the claim, so the successful
extraction result is collapsed to `Unit`. -/

inductive FetchOutcome where
  | unreachable
  | response (status : Nat) (contentType : Str) (bodyBytes : Nat)
deriving DecidableEq, Repr

/-- `MAX_DOCUMENT_BYTES` of `lib/extractor` (3 MiB). -/
def MAX_EXTRACT_BYTES : Nat := 3 * 1024 * 1024

/-- `fetchHtml` of `lib/extractor` (lines 134-169): 502 when unreachable,
502 for upstream status ≥ 500 and 400 for other non-2xx statuses, 400 for
non-HTML content type, empty body, or oversize body.  The error value is the
`ExtractionError.status`. -/
def fetchHtmlM (o : FetchOutcome) : Except Nat Unit :=
  match o with
  | .unreachable => .error 502
  | .response status ct body =>
    if !(200 ≤ status && status ≤ 299) then
      if 500 ≤ status then .error 502 else .error 400
    else if !(containsSub ct (strL "text/html")) then .error 400
    else if body = 0 then .error 400
    else if MAX_EXTRACT_BYTES < body then .error 400
    else .ok ()

/-- `extractStructuredContent` of `lib/extractor` (lines 48-80), failure
path: conservative URL normalization (400-classified), then `fetchHtml`. -/
def extractLibM (inputUrl : Str) (o : FetchOutcome) : Except Nat Unit :=
  match normalizeUrlCons inputUrl with
  | .error s => .error s
  | .ok _ => fetchHtmlM o

/-- The route-local `extractStructuredContent` of
`src/app/api/extract/route.ts` (lines 66-104): `fetch(url)` rejects both for
an unparsable URL and an unreachable origin, and the surrounding `try` maps
any rejection to a 502 (`"Unable to fetch URL."`); every non-2xx status is
mapped to 502 (`"Upstream error: …"`); there is no content-type / empty /
size check. -/
def extractRouteM (inputUrl : Str) (o : FetchOutcome) : Except Nat Unit :=
  if (parseAbs inputUrl).isNone then .error 502
  else
    match o with
    | .unreachable => .error 502
    | .response status _ _ =>
      if !(200 ≤ status && status ≤ 299) then .error 502 else .ok ()

/-- Modelled from the spec: the classification stated by the claim —
400 exactly for a bad/unparsable URL or a non-HTML response (including
empty and oversize bodies) and for upstream non-2xx statuses below 500, and
502 exactly for an unreachable origin or an upstream 5xx. -/
def specClassifyM (inputUrl : Str) (o : FetchOutcome) : Except Nat Unit :=
  if !(normalizeUrlCons inputUrl).isOk then .error 400
  else
    match o with
    | .unreachable => .error 502
    | .response status ct body =>
      if 500 ≤ status then .error 502
      else if !(200 ≤ status && status ≤ 299) then .error 400
      else if !(containsSub ct (strL "text/html")) then .error 400
      else if body = 0 || MAX_EXTRACT_BYTES < body then .error 400
      else .ok ()

/-- C6 (counterexample): the claim's classification does not hold of the
program's single-page extraction as a whole.  For a well-formed URL whose
origin answers with an HTML 404, the `/api/extract` route's own extractor
classifies the failure as 502 (`Upstream error: 404`), while the claim (and
the `lib/extractor` path) demand 400 for an upstream non-2xx status below
500. -/
theorem c6_counterexample :
    extractRouteM (strL "https://example.com/")
      (.response 404 (strL "text/html") 10) = .error 502 ∧
    extractLibM (strL "https://example.com/")
      (.response 404 (strL "text/html") 10) = .error 400 ∧
    specClassifyM (strL "https://example.com/")
      (.response 404 (strL "text/html") 10) = .error 400 := by
  refine ⟨by rfl, by rfl, by rfl⟩

theorem normalizeUrlCons_error_status {i : Str} {s : Nat}
    (h : normalizeUrlCons i = .error s) : s = 400 := by
  unfold normalizeUrlCons at h
  dsimp only at h
  split at h
  · injection h with h
    exact h.symm
  · split at h
    · exact absurd h (by simp)
    · injection h with h
      exact h.symm

/-- C6 (amended): the claimed classification holds of the `lib/extractor`
single-page extraction (the path used by the AI-mirror features): its
failure status agrees with the spec's classification on every input URL and
every fetch outcome.  The standalone `/api/extract` route's own extractor is
the exception recorded in `c6_counterexample`. -/
theorem c6_lib_classification (inputUrl : Str) (o : FetchOutcome) :
    extractLibM inputUrl o = specClassifyM inputUrl o := by
  unfold extractLibM specClassifyM fetchHtmlM
  cases hn : normalizeUrlCons inputUrl with
  | error s =>
    rw [normalizeUrlCons_error_status hn]
    rfl
  | ok t =>
    cases o with
    | unreachable => rfl
    | response status ct body =>
      show _ = if (!(Except.ok t : Except Nat Str).isOk) = true then _ else _
      rw [show (!(Except.ok t : Except Nat Str).isOk) = false from rfl]
      simp only [Bool.false_eq_true, if_false]
      by_cases h2xx : 200 ≤ status ∧ status ≤ 299
      · have hok : (decide (200 ≤ status) && decide (status ≤ 299)) = true := by
          simp [h2xx.1, h2xx.2]
        have h5 : ¬ 500 ≤ status := by omega
        simp only [hok, Bool.not_true, Bool.false_eq_true, if_false, if_neg h5]
        by_cases hct : containsSub ct (strL "text/html") = true
        · simp only [hct, Bool.not_true, Bool.false_eq_true, if_false]
          by_cases hb0 : body = 0
          · simp [hb0]
          · by_cases hbig : MAX_EXTRACT_BYTES < body
            · simp [hb0, hbig]
            · simp [hb0, hbig]
        · have hctf : containsSub ct (strL "text/html") = false := by
            simpa using hct
          simp only [hctf, Bool.not_false, if_true]
      · have hok : (decide (200 ≤ status) && decide (status ≤ 299)) = false := by
          rcases Nat.lt_or_ge status 200 with hlt | hge
          · simp [Nat.not_le.mpr hlt]
          · have : ¬ status ≤ 299 := by omega
            simp [this]
        simp only [hok, Bool.not_false, if_true]

/-! ## Structure Analyzer (structure-analyzer module, lines 45-370)

Scores as integers; regex-based counters implemented as executable scanners.
The multiline metrics regexes (`^#{1,6}\s+.+$`, `^\s*[-*+]\s+.+$`) are
modelled per line (`\s` staying inside its line); the health-score bounds
proved below do not depend on the counted values. -/

theorem dropWhile_length_le (p : Char → Bool) (l : Str) :
    (l.dropWhile p).length ≤ l.length :=
  (List.dropWhile_sublist p).length_le

/-- Count the maximal `\w`-runs: the matches of `\b\w+\b`. -/
def countWordRuns : Str → Nat
  | [] => 0
  | c :: cs =>
    if isWordC c then 1 + countWordRuns (cs.dropWhile isWordC)
    else countWordRuns cs
termination_by s => s.length
decreasing_by
  · simp only [List.length_cons]
    exact Nat.lt_succ_of_le (dropWhile_length_le _ _)
  · simp

/-- `split(/\n\n+/)`: split on runs of two or more newlines. -/
def splitParasGo (acc : Str) : Str → List Str
  | [] => [acc.reverse]
  | c :: cs =>
    if c = '\n' ∧ cs.head? = some '\n' then
      acc.reverse :: splitParasGo [] (cs.dropWhile (fun d => d == '\n'))
    else splitParasGo (c :: acc) cs
termination_by s => s.length
decreasing_by
  · simp only [List.length_cons]
    exact Nat.lt_succ_of_le (dropWhile_length_le _ _)
  · simp

def splitParas (s : Str) : List Str := splitParasGo [] s

/-- One line matches `^#{1,6}\s+.+$`. -/
def isHeadingLine (l : Str) : Bool :=
  let hs := l.takeWhile (fun c => c == '#')
  let rest := l.drop hs.length
  decide (1 ≤ hs.length) && decide (hs.length ≤ 6) &&
    (match rest with
     | c :: _ :: _ => isSpaceC c
     | _ => false)

/-- One line matches `^\s*[-*+]\s+.+$`. -/
def isListLine (l : Str) : Bool :=
  match l.dropWhile isSpaceC with
  | c :: rest =>
    (c == '-' || c == '*' || c == '+') &&
      (match rest with
       | d :: _ :: _ => isSpaceC d
       | _ => false)
  | [] => false

/-- Drop everything up to and including the first occurrence of `pat`. -/
def dropAfterSub (pat : Str) : Str → Option Str
  | [] => if pat.isEmpty then some [] else none
  | c :: cs =>
    if pat.isPrefixOf (c :: cs) then some (cs.drop (pat.length - 1))
    else dropAfterSub pat cs

theorem dropAfterSub_length {pat : Str} (hne : pat ≠ []) :
    ∀ s r, dropAfterSub pat s = some r → r.length < s.length := by
  intro s
  induction s with
  | nil =>
    intro r h
    unfold dropAfterSub at h
    rw [if_neg (by simpa [List.isEmpty_iff] using hne)] at h
    exact absurd h (by simp)
  | cons c cs ih =>
    intro r h
    unfold dropAfterSub at h
    split at h
    · injection h with h
      rw [← h]
      simp only [List.length_cons, List.length_drop]
      cases pat with
      | nil => exact absurd rfl hne
      | cons p ps => omega
    · exact Nat.lt_trans (ih r h) (by simp)

/-- Count the non-overlapping matches of the lazy `/```[\s\S]*?```/g`:
pair up successive occurrences of three backticks. -/
def countCodeBlocks (s : Str) : Nat :=
  match h1 : dropAfterSub (strL "```") s with
  | none => 0
  | some r1 =>
    match h2 : dropAfterSub (strL "```") r1 with
    | none => 0
    | some r2 => 1 + countCodeBlocks r2
termination_by s.length
decreasing_by
  exact Nat.lt_trans (dropAfterSub_length (by decide) r1 r2 h2)
    (dropAfterSub_length (by decide) s r1 h1)

/-- Scan for the `](` of `\[.+?\]\(.+?\)` with backtracking: the first `](`
preceded by at least one non-newline content character; a `]` that opens no
`](` boundary, or a `](` seen with no content yet, is absorbed as content. -/
def scanClose : Str → Nat → Option Str
  | [], _ => none
  | c :: cs, consumed =>
    if c = ']' ∧ cs.head? = some '(' then
      if 1 ≤ consumed then some cs.tail else scanClose cs 1
    else if c = '\n' then none
    else scanClose cs (consumed + 1)

/-- Scan for the closing `)` of `\[.+?\]\(.+?\)`. -/
def scanParen : Str → Nat → Option Str
  | [], _ => none
  | c :: cs, consumed =>
    if c = ')' then
      if 1 ≤ consumed then some cs else scanParen cs 1
    else if c = '\n' then none
    else scanParen cs (consumed + 1)

theorem scanClose_length : ∀ s : Str, ∀ n r, scanClose s n = some r →
    r.length < s.length := by
  intro s
  induction s with
  | nil => intro n r h; exact absurd h (by simp [scanClose])
  | cons c cs ih =>
    intro n r h
    unfold scanClose at h
    split at h
    · split at h
      · injection h with h
        rw [← h]
        simp only [List.length_cons]
        have := List.length_tail cs
        omega
      · exact Nat.lt_trans (ih 1 r h) (by simp)
    · split at h
      · exact absurd h (by simp)
      · exact Nat.lt_trans (ih (n + 1) r h) (by simp)

theorem scanParen_length : ∀ s : Str, ∀ n r, scanParen s n = some r →
    r.length < s.length := by
  intro s
  induction s with
  | nil => intro n r h; exact absurd h (by simp [scanParen])
  | cons c cs ih =>
    intro n r h
    unfold scanParen at h
    split at h
    · split at h
      · injection h with h
        rw [← h]
        simp
      · exact Nat.lt_trans (ih 1 r h) (by simp)
    · split at h
      · exact absurd h (by simp)
      · exact Nat.lt_trans (ih (n + 1) r h) (by simp)

/-- Count the non-overlapping matches of `/\[.+?\]\(.+?\)/g`. -/
def countLinks : Str → Nat
  | [] => 0
  | c :: rest =>
    if c = '[' then
      match h1 : scanClose rest 0 with
      | some r2 =>
        match h2 : scanParen r2 0 with
        | some r3 => 1 + countLinks r3
        | none => countLinks rest
      | none => countLinks rest
    else countLinks rest
termination_by s => s.length
decreasing_by
  · simp only [List.length_cons]
    exact Nat.lt_succ_of_lt (Nat.lt_trans (scanParen_length _ 0 _ h2)
      (scanClose_length _ 0 _ h1))
  · simp
  · simp
  · simp

structure MDFSections where
  hasTitle : Bool
  hasUrl : Bool
  hasContent : Bool
  hasMetadata : Bool
  hasFrontmatter : Bool
deriving DecidableEq, Repr

structure ContentMetrics where
  wordCount : Nat
  paragraphCount : Nat
  headingCount : Nat
  listCount : Nat
  codeBlockCount : Nat
  linkCount : Nat
deriving DecidableEq, Repr

inductive Severity where
  | error | warning | info
deriving DecidableEq, Repr

structure ValidationWarning where
  severity : Severity
  message : String
  section? : Option String
deriving DecidableEq, Repr

structure HealthScore where
  score : Int
  grade : String
  color : String
  description : String
deriving DecidableEq, Repr

structure AiReadability where
  score : Int
  issues : List String
  strengths : List String
deriving DecidableEq, Repr

structure StructureAnalysis where
  sections : MDFSections
  metrics : ContentMetrics
  warnings : List ValidationWarning
  health : HealthScore
  aiReadability : AiReadability
deriving DecidableEq, Repr

/-- The tail of `/^#\s+.+/m` after the `#`: a whitespace run of length at
least one followed by one more character matched by `.` (any non-newline);
when everything after the `#` is whitespace, some non-newline whitespace
character must sit after the first. -/
def titleTail (r : Str) : Bool :=
  match r with
  | [] => false
  | c :: _ =>
    isSpaceC c &&
      (if (r.dropWhile isSpaceC).isEmpty then
        ((r.takeWhile isSpaceC).drop 1).any (fun d => !(d == '\n'))
      else true)

/-- `/^#\s+.+/m`: some line-start position opens a `# ` heading. -/
def hasTitleAt : Bool → Str → Bool
  | _, [] => false
  | atStart, c :: rest =>
    (atStart && c == '#' && titleTail rest) || hasTitleAt (c == '\n') rest

/-- `##` followed by optional whitespace followed by `pat`, anywhere. -/
def hasHashHash (s pat : Str) : Bool :=
  s.tails.any (fun t =>
    (strL "##").isPrefixOf t &&
      pat.isPrefixOf ((t.drop 2).dropWhile isSpaceC))

/-- `/source:\s*https?:\/\//i` on the lowercased text. -/
def hasSourceUrl (s : Str) : Bool :=
  s.tails.any (fun t =>
    (strL "source:").isPrefixOf t &&
      (let u := (t.drop 7).dropWhile isSpaceC
       (strL "http://").isPrefixOf u || (strL "https://").isPrefixOf u))

/-- `extractSections` (lines 123-133): `lines` is the lowercased text; the
frontmatter and title tests run on the original. -/
def extractSections (markdown : Str) : MDFSections :=
  let lines := lowerStr markdown
  { hasFrontmatter := (strL "---").isPrefixOf markdown &&
      containsSub (markdown.drop 3) (strL "---"),
    hasTitle := hasTitleAt true markdown,
    hasUrl := hasHashHash lines (strL "url") || hasSourceUrl lines,
    hasContent := hasHashHash lines (strL "content") ||
      decide (5 < ((splitNl markdown).filter
        (fun l => decide (0 < (trimStr l).length))).length),
    hasMetadata := hasHashHash lines (strL "metadata") ||
      containsSub lines (strL "author:") || containsSub lines (strL "published") ||
      containsSub lines (strL "updated") || containsSub lines (strL "language:") }

/-- `calculateMetrics` (lines 138-158). -/
def calculateMetrics (markdown : Str) : ContentMetrics :=
  { wordCount := countWordRuns markdown,
    paragraphCount := ((splitParas markdown).filter (fun p =>
      let t := trimStr p
      decide (0 < t.length) && !(strL "#").isPrefixOf t &&
        !(strL "-").isPrefixOf t)).length,
    headingCount := ((splitNl markdown).filter isHeadingLine).length,
    listCount := ((splitNl markdown).filter isListLine).length,
    codeBlockCount := countCodeBlocks markdown,
    linkCount := countLinks markdown }

/-- `validateStructure` (lines 184-254). -/
def validateStructure (markdown : Str) (sections : MDFSections)
    (metrics : ContentMetrics) : List ValidationWarning :=
  (if !sections.hasTitle then
    [⟨.error, "Missing main title (H1 heading)", some "Title"⟩] else []) ++
  (if !sections.hasContent && decide (metrics.paragraphCount < 3) then
    [⟨.error, "Insufficient content - AI needs more context", some "Content"⟩]
   else []) ++
  (if !sections.hasUrl && !sections.hasFrontmatter then
    [⟨.warning, "Missing source URL - AI can" ++ String.mk [apos] ++ "t verify origin", some "URL"⟩]
   else []) ++
  (if !sections.hasMetadata then
    [⟨.info, "Consider adding metadata (author, date, language) for better AI context", some "Metadata"⟩]
   else []) ++
  (if decide (metrics.wordCount < 50) then
    [⟨.warning, "Low word count - may not provide enough information for AI", some "Content"⟩]
   else []) ++
  (if decide (metrics.headingCount = 0) then
    [⟨.warning, "No headings found - structure helps AI understand hierarchy", some "Structure"⟩]
   else []) ++
  (if decide (0 < ((splitParas markdown).filter
      (fun p => decide (200 < countWordRuns p))).length) then
    [⟨.info, "Some paragraphs are very long - consider breaking them up for better AI parsing", some "Content"⟩]
   else [])

/-- `calculateHealthScore` (lines 259-310). -/
def calculateHealthScore (sections : MDFSections) (metrics : ContentMetrics)
    (warnings : List ValidationWarning) : HealthScore :=
  let score : Int :=
    (if sections.hasTitle then 10 else 0) +
    (if sections.hasFrontmatter then 10 else 0) +
    (if sections.hasUrl then 10 else 0) +
    (if sections.hasContent then 5 else 0) +
    (if sections.hasMetadata then 5 else 0) +
    (if 100 < metrics.wordCount then 10 else 0) +
    (if 300 < metrics.wordCount then 5 else 0) +
    (if 0 < metrics.headingCount then 10 else 0) +
    (if 3 < metrics.headingCount then 5 else 0) +
    (if 2 < metrics.paragraphCount then 5 else 0) +
    (if 0 < metrics.listCount then 5 else 0) +
    max 0 (20 -
      ((warnings.filter (fun w => w.severity = .error)).length : Int) * 10 -
      ((warnings.filter (fun w => w.severity = .warning)).length : Int) * 3)
  if 85 ≤ score then
    ⟨score, "Excellent", "emerald",
      "Perfect for AI consumption - well-structured with rich content"⟩
  else if 70 ≤ score then
    ⟨score, "Good", "blue", "Good structure - AI can easily extract information"⟩
  else if 50 ≤ score then
    ⟨score, "Fair", "amber",
      "Acceptable but could be improved for better AI understanding"⟩
  else
    ⟨score, "Poor", "red",
      "Needs improvement - AI may struggle to extract meaningful information"⟩

/-- `analyzeAIReadability` (lines 315-370): starts at 100, only subtracts,
then clamps with `Math.max(0, Math.min(100, score))`. -/
def analyzeAIReadability (markdown : Str) (sections : MDFSections)
    (metrics : ContentMetrics) : AiReadability :=
  let base : Int := 100
  let s1 : Int := if sections.hasFrontmatter then base else base - 10
  let s2 : Int :=
    if 3 ≤ metrics.headingCount then s1
    else if metrics.headingCount = 0 then s1 - 15 else s1
  let s3 : Int := if 100 ≤ metrics.wordCount then s2 else s2 - 10
  let s4 : Int :=
    if containsSub (lowerStr markdown) (strL "skip to content") ||
        containsSub (lowerStr markdown) (strL "accept cookies") ||
        containsSub (lowerStr markdown) (strL "gdpr") ||
        containsSub (lowerStr markdown) (strL "subscribe now") then s3 - 5
    else s3
  let issues : List String :=
    (if sections.hasFrontmatter then []
     else ["Missing frontmatter - AI prefers structured metadata"]) ++
    (if 3 ≤ metrics.headingCount then []
     else if metrics.headingCount = 0 then
       ["No headings - AI can" ++ String.mk [apos] ++ "t understand content hierarchy"] else []) ++
    (if 100 ≤ metrics.wordCount then []
     else ["Content too short - AI needs more context"]) ++
    (if containsSub (lowerStr markdown) (strL "skip to content") ||
        containsSub (lowerStr markdown) (strL "accept cookies") ||
        containsSub (lowerStr markdown) (strL "gdpr") ||
        containsSub (lowerStr markdown) (strL "subscribe now") then
       ["Contains UI noise that should be removed"] else [])
  let strengths : List String :=
    (if sections.hasFrontmatter then ["Has frontmatter with structured metadata"]
     else []) ++
    (if 3 ≤ metrics.headingCount then
      ["Good heading structure for hierarchical understanding"] else []) ++
    (if 0 < metrics.listCount then ["Contains lists for structured information"]
     else []) ++
    (if 100 ≤ metrics.wordCount then ["Sufficient content length for context"]
     else []) ++
    (if containsSub markdown (strL "```") then ["Properly formatted code blocks"]
     else []) ++
    (if 0 < countLinks markdown then ["Contains properly formatted links"]
     else [])
  ⟨max 0 (min 100 s4), issues, strengths⟩

/-- `analyzeMarkdownStructure` (lines 102-118), without the redundant
per-heading listing. -/
def analyzeMarkdownStructure (markdown : Str) : StructureAnalysis :=
  let sections := extractSections markdown
  let metrics := calculateMetrics markdown
  let warnings := validateStructure markdown sections metrics
  { sections := sections, metrics := metrics, warnings := warnings,
    health := calculateHealthScore sections metrics warnings,
    aiReadability := analyzeAIReadability markdown sections metrics }

/-! ## Claim C9 -/

/-- The health score before grading, as one expression. -/
def healthScoreRaw (s : MDFSections) (m : ContentMetrics)
    (w : List ValidationWarning) : Int :=
  (if s.hasTitle then 10 else 0) +
  (if s.hasFrontmatter then 10 else 0) +
  (if s.hasUrl then 10 else 0) +
  (if s.hasContent then 5 else 0) +
  (if s.hasMetadata then 5 else 0) +
  (if 100 < m.wordCount then 10 else 0) +
  (if 300 < m.wordCount then 5 else 0) +
  (if 0 < m.headingCount then 10 else 0) +
  (if 3 < m.headingCount then 5 else 0) +
  (if 2 < m.paragraphCount then 5 else 0) +
  (if 0 < m.listCount then 5 else 0) +
  max 0 (20 -
    ((w.filter (fun x => x.severity = .error)).length : Int) * 10 -
    ((w.filter (fun x => x.severity = .warning)).length : Int) * 3)

theorem grade_ite_score (x : Int) :
    (HealthScore.score (if 85 ≤ x then
        ⟨x, "Excellent", "emerald",
          "Perfect for AI consumption - well-structured with rich content"⟩
      else if 70 ≤ x then
        ⟨x, "Good", "blue", "Good structure - AI can easily extract information"⟩
      else if 50 ≤ x then
        ⟨x, "Fair", "amber",
          "Acceptable but could be improved for better AI understanding"⟩
      else
        ⟨x, "Poor", "red",
          "Needs improvement - AI may struggle to extract meaningful information"⟩)) =
      x := by
  split
  · rfl
  · split
    · rfl
    · split
      · rfl
      · rfl

theorem calculateHealthScore_score (s : MDFSections) (m : ContentMetrics)
    (w : List ValidationWarning) :
    (calculateHealthScore s m w).score = healthScoreRaw s m w :=
  grade_ite_score (healthScoreRaw s m w)

/-- C9: for every input string to the Structure Analyzer, including the
empty string, the health score and the AI-readability score both lie in
`[0, 100]`.  Section completeness contributes at most 40, content richness
at most 40, and the warning-penalty term `max(0, 20 - 10·errors - 3·warnings)`
lies in `[0, 20]`; the AI-readability score is clamped outright. -/
theorem c9_score_bounds (md : Str) :
    0 ≤ (analyzeMarkdownStructure md).health.score ∧
    (analyzeMarkdownStructure md).health.score ≤ 100 ∧
    0 ≤ (analyzeMarkdownStructure md).aiReadability.score ∧
    (analyzeMarkdownStructure md).aiReadability.score ≤ 100 := by
  have hhealth : ∀ (s : MDFSections) (m : ContentMetrics)
      (w : List ValidationWarning),
      0 ≤ (calculateHealthScore s m w).score ∧
        (calculateHealthScore s m w).score ≤ 100 := by
    intro s m w
    rw [calculateHealthScore_score]
    unfold healthScoreRaw
    have hp0 : (0 : Int) ≤ max 0 (20 -
        ((w.filter (fun x => x.severity = .error)).length : Int) * 10 -
        ((w.filter (fun x => x.severity = .warning)).length : Int) * 3) :=
      le_max_left 0 _
    have hp20 : max 0 (20 -
        ((w.filter (fun x => x.severity = .error)).length : Int) * 10 -
        ((w.filter (fun x => x.severity = .warning)).length : Int) * 3) ≤ 20 := by
      apply max_le
      · norm_num
      · have he : (0 : Int) ≤
            ((w.filter (fun x => x.severity = .error)).length : Int) := by
          positivity
        have hw : (0 : Int) ≤
            ((w.filter (fun x => x.severity = .warning)).length : Int) := by
          positivity
        omega
    have b1 : (0:Int) ≤ (if s.hasTitle then (10:Int) else 0) ∧
        (if s.hasTitle then (10:Int) else 0) ≤ 10 := by split <;> norm_num
    have b2 : (0:Int) ≤ (if s.hasFrontmatter then (10:Int) else 0) ∧
        (if s.hasFrontmatter then (10:Int) else 0) ≤ 10 := by split <;> norm_num
    have b3 : (0:Int) ≤ (if s.hasUrl then (10:Int) else 0) ∧
        (if s.hasUrl then (10:Int) else 0) ≤ 10 := by split <;> norm_num
    have b4 : (0:Int) ≤ (if s.hasContent then (5:Int) else 0) ∧
        (if s.hasContent then (5:Int) else 0) ≤ 5 := by split <;> norm_num
    have b5 : (0:Int) ≤ (if s.hasMetadata then (5:Int) else 0) ∧
        (if s.hasMetadata then (5:Int) else 0) ≤ 5 := by split <;> norm_num
    have b6 : (0:Int) ≤ (if 100 < m.wordCount then (10:Int) else 0) ∧
        (if 100 < m.wordCount then (10:Int) else 0) ≤ 10 := by
      split <;> norm_num
    have b7 : (0:Int) ≤ (if 300 < m.wordCount then (5:Int) else 0) ∧
        (if 300 < m.wordCount then (5:Int) else 0) ≤ 5 := by split <;> norm_num
    have b8 : (0:Int) ≤ (if 0 < m.headingCount then (10:Int) else 0) ∧
        (if 0 < m.headingCount then (10:Int) else 0) ≤ 10 := by
      split <;> norm_num
    have b9 : (0:Int) ≤ (if 3 < m.headingCount then (5:Int) else 0) ∧
        (if 3 < m.headingCount then (5:Int) else 0) ≤ 5 := by split <;> norm_num
    have b10 : (0:Int) ≤ (if 2 < m.paragraphCount then (5:Int) else 0) ∧
        (if 2 < m.paragraphCount then (5:Int) else 0) ≤ 5 := by
      split <;> norm_num
    have b11 : (0:Int) ≤ (if 0 < m.listCount then (5:Int) else 0) ∧
        (if 0 < m.listCount then (5:Int) else 0) ≤ 5 := by split <;> norm_num
    omega
  have hai : ∀ (s : MDFSections) (m : ContentMetrics),
      0 ≤ (analyzeAIReadability md s m).score ∧
        (analyzeAIReadability md s m).score ≤ 100 := by
    intro s m
    unfold analyzeAIReadability
    dsimp only
    constructor
    · exact le_max_left 0 _
    · exact max_le (by norm_num) (min_le_left 100 _)
  unfold analyzeMarkdownStructure
  dsimp only
  exact ⟨(hhealth _ _ _).1, (hhealth _ _ _).2.trans (by norm_num),
    (hai _ _).1, (hai _ _).2⟩

/-! ## Markdown sanitizer (`sanitizeMarkdown`, lines 103-147)

Each `replace` call is embedded as a left-to-right scanner with the exact
backtracking semantics of the JS regex.  Scanners that are not structurally
recursive take a fuel argument; every step consumes at least one input
character, so fuel `s.length` is always sufficient and the fuel-out branch
(returning the remaining input unchanged) is never reached. -/

/-- JS line terminators (`\n`, `\r`, U+2028, U+2029). -/
def isLineTermC (c : Char) : Bool :=
  c = '\n' || c = '\r' || c.toNat = 8232 || c.toNat = 8233

/-- JS `.` without the `s` flag: anything but a line terminator. -/
def isDotC (c : Char) : Bool := !isLineTermC c

/-- The noise phrase list (lines 107-115), in source order. -/
def noisePhrases : List Str :=
  [ strL "Please Wait",
    strL "Why not use this time to clean your screen",
    strL "Rome wasn" ++ apos :: strL "t built in a day",
    strL "Look at the pink disk closely",
    strL "Don" ++ apos :: strL "t rush it",
    strL "We" ++ apos :: strL "d let you in now",
    strL "Drag and drop" ]

/-- One noise-phrase replacement (line 119): `new RegExp(".*phrase.*", "i")`
is non-global and `.` cannot cross a line terminator, so the leftmost match
is the entire content of the first line containing the phrase
case-insensitively; it is replaced by the empty string and scanning stops. -/
def blankFirstF (p : Str) : Nat → Str → Str
  | 0, s => s
  | f+1, s =>
    let line := s.takeWhile isDotC
    let rest := s.dropWhile isDotC
    if containsSubCI line p then rest
    else
      match rest with
      | [] => s
      | c :: rs => line ++ c :: blankFirstF p f rs

def blankFirst (p s : Str) : Str := blankFirstF p s.length s

/-- Pass 1 (lines 117-120): fold the seven phrase replacements in order. -/
def pass1 (s : Str) : Str := noisePhrases.foldl (fun acc p => blankFirst p acc) s

/-- Pass 2 (line 123): the global dash-run regex (20 or more dashes) removes
every maximal dash run of length at least 20 (the greedy quantifier always
takes the whole run). -/
def pass2F : Nat → Str → Str
  | 0, s => s
  | _+1, [] => []
  | f+1, c :: cs =>
    if c = '-' then
      let run := (c :: cs).takeWhile (fun x => x = '-')
      let rest := (c :: cs).dropWhile (fun x => x = '-')
      if 20 ≤ run.length then pass2F f rest else run ++ pass2F f rest
    else c :: pass2F f cs

def pass2 (s : Str) : Str := pass2F s.length s

/-- Case-insensitive prefix test. -/
def startsWithCI (s p : Str) : Bool := (lowerStr p).isPrefixOf (lowerStr s)

/-- Pass 3 (line 126): the global case-insensitive regex
`explore more\s*` followed by a dash.  After the literal, the greedy
`\s*` must end exactly at the maximal whitespace run (a dash is not
whitespace), so the match succeeds iff the next character is `-`. -/
def pass3F : Nat → Str → Str
  | 0, s => s
  | _+1, [] => []
  | f+1, c :: cs =>
    if startsWithCI (c :: cs) (strL "explore more") then
      let rest12 := (c :: cs).drop 12
      let after := rest12.dropWhile isSpaceC
      match after with
      | d :: r => if d = '-' then pass3F f r else c :: pass3F f cs
      | [] => c :: pass3F f cs
    else c :: pass3F f cs

def pass3 (s : Str) : Str := pass3F s.length s

/-- The label alternation of pass 4 (line 132), in source order. -/
def jobLabels : List Str :=
  [ strL "What You" ++ apos :: strL "ll Do",
    strL "Requirements",
    strL "Benefits",
    strL "Location",
    strL "Key Responsibility",
    strL "What You" ++ apos :: strL "ll Be Doing",
    strL "Skills & Personal Qualities",
    strL "Job Description",
    strL "Notes" ]

/-- First label of the alternation matching at this position (JS alternation
tries the alternatives left to right). -/
def findLabel (s : Str) : Option Str := jobLabels.find? (fun l => l.isPrefixOf s)

/-- Pass-4 match attempt at a `^` position:
`\s*-\s*(\d+\.\s+(?:labels))` with replacement `### $1`.  Each greedy
`\s*`/`\d+`/`\s+` must end at its maximal run because the required next
character (`-`, `.`, a label's capital) is never in the repeated class.
Returns the replacement text and the unconsumed remainder. -/
def tryPass4 (s0 : Str) : Option (Str × Str) :=
  match s0.dropWhile isSpaceC with
  | d :: t2 =>
    if d = '-' then
      let t3 := t2.dropWhile isSpaceC
      let digits := t3.takeWhile isDigitC
      if digits.isEmpty then none else
      match t3.drop digits.length with
      | e :: t5 =>
        if e = '.' then
          let sp3 := t5.takeWhile isSpaceC
          if sp3.isEmpty then none else
          let t6 := t5.dropWhile isSpaceC
          match findLabel t6 with
          | some lab =>
            some (strL "### " ++ digits ++ '.' :: sp3 ++ lab, t6.drop lab.length)
          | none => none
        else none
      | [] => none
    else none
  | [] => none

/-- Pass 4 (line 132): global multiline scan.  The Bool argument records
whether the current position is a `^` position (start of input or right
after a line terminator); a match's replacement ends in a label letter, so
scanning resumes in mid-line state. -/
def pass4F : Nat → Bool → Str → Str
  | 0, _, s => s
  | _+1, _, [] => []
  | f+1, ls, c :: cs =>
    if ls then
      match tryPass4 (c :: cs) with
      | some (rep, rem) => rep ++ pass4F f false rem
      | none => c :: pass4F f (isLineTermC c) cs
    else c :: pass4F f (isLineTermC c) cs

def pass4 (s : Str) : Str := pass4F s.length true s

/-- The pass-5 character class `[a-zA-Z0-9\s&/\\()\-.,]`. -/
def isTitleC (c : Char) : Bool :=
  isAlphaC c || isDigitC c || isSpaceC c || c = '&' || c = '/' || c = '\\' ||
  c = '(' || c = ')' || c = '-' || c = '.' || c = ','

/-- `$` of a multiline regex: end of input or right before a terminator. -/
def atLineEnd : Str → Bool
  | [] => true
  | d :: _ => isLineTermC d

/-- Greedy `{4,70}$`: the largest `k` with `4 ≤ k ≤ start` such that the
position after `k` class characters is a line end.  Tries `k` downward. -/
def bestK (cs : Str) : Nat → Option Nat
  | 0 => none
  | k+1 =>
    if k+1 < 4 then none
    else if atLineEnd (cs.drop (k+1)) then some (k+1)
    else bestK cs k

/-- Pass 5 (line 137): `/^(?![-\d])([A-Z][a-zA-Z0-9\s&/\\()\-.,]{4,70})$/gm`
with replacement `### $1`.  The negative lookahead is subsumed by `[A-Z]`.
Since `\s` (hence the class) contains `\n`, the greedy repetition may cross
line breaks and end at a later line's end. -/
def pass5F : Nat → Bool → Str → Str
  | 0, _, s => s
  | _+1, _, [] => []
  | f+1, ls, c :: cs =>
    if ls && isUpperC c then
      let run := cs.takeWhile isTitleC
      match bestK cs (min 70 run.length) with
      | some k =>
        let matched := c :: cs.take k
        strL "### " ++ matched ++
          pass5F f (isLineTermC (matched.getLastD c)) (cs.drop k)
      | none => c :: pass5F f (isLineTermC c) cs
    else c :: pass5F f (isLineTermC c) cs

def pass5 (s : Str) : Str := pass5F s.length true s

/-- Pass 6a (line 140): `/([a-z0-9])\n([A-Z])/g` inserts a blank line;
matches are non-overlapping, scanning resumes after the capital. -/
def pass6a : Str → Str
  | [] => []
  | [a] => [a]
  | [a, b] => [a, b]
  | a :: b :: c :: rest =>
    if (isLowerC a || isDigitC a) && b = '\n' && isUpperC c then
      a :: '\n' :: '\n' :: c :: pass6a rest
    else a :: pass6a (b :: c :: rest)

def isPunct3C (c : Char) : Bool := c = '.' || c = '!' || c = '?'

/-- Pass 6b (line 141): `/([.!?])\s*\n\s*([A-Z])/g`.  The two greedy `\s*`
around the `\n` jointly consume the maximal whitespace run, which must
contain a newline, and the capital must follow that run directly. -/
def pass6bF : Nat → Str → Str
  | 0, s => s
  | _+1, [] => []
  | f+1, p :: rest =>
    if isPunct3C p then
      let w := rest.takeWhile isSpaceC
      let after := rest.dropWhile isSpaceC
      if w.contains '\n' then
        match after with
        | u :: rs =>
          if isUpperC u then p :: '\n' :: '\n' :: u :: pass6bF f rs
          else p :: pass6bF f rest
        | [] => p :: pass6bF f rest
      else p :: pass6bF f rest
    else p :: pass6bF f rest

def pass6b (s : Str) : Str := pass6bF s.length s

/-- What a maximal newline run of length `n` becomes under `/\n{3,}/g`. -/
def nlEmit (n : Nat) : Str := List.replicate (min n 2) '\n'

/-- Pass 7 (line 144): collapse every maximal run of 3 or more newlines to
exactly two.  `n` counts the pending newlines of the current run. -/
def pass7go : Nat → Str → Str
  | n, [] => nlEmit n
  | n, c :: cs =>
    if c = '\n' then pass7go (n+1) cs else nlEmit n ++ c :: pass7go 0 cs

def pass7 (s : Str) : Str := pass7go 0 s

/-- `sanitizeMarkdown` (lines 103-147): the seven passes then `trim()`. -/
def sanitizeMarkdown (s : Str) : Str :=
  trimStr (pass7 (pass6b (pass6a (pass5 (pass4 (pass3 (pass2 (pass1 s))))))))

/-- Detects three consecutive newlines (a residual pass-7 redex). -/
def hasTripleNl : Str → Bool
  | a :: b :: c :: rest =>
    (a == '\n' && b == '\n' && c == '\n') || hasTripleNl (b :: c :: rest)
  | _ => false

theorem hasTriple_cons_of_ne (a : Char) (l : Str) (h : ¬ a = '\n') :
    hasTripleNl (a :: l) = hasTripleNl l := by
  cases l with
  | nil => rfl
  | cons b l' =>
    cases l' with
    | nil => rfl
    | cons c l'' => simp [hasTripleNl, h]

theorem hasTriple_cons2_of_ne (a b : Char) (l : Str) (h : ¬ b = '\n') :
    hasTripleNl (a :: b :: l) = hasTripleNl (b :: l) := by
  cases l with
  | nil => rfl
  | cons c l'' => simp [hasTripleNl, h]

theorem hasTriple_cons3_of_ne (a b c : Char) (l : Str) (h : ¬ c = '\n') :
    hasTripleNl (a :: b :: c :: l) = hasTripleNl (b :: c :: l) := by
  simp [hasTripleNl, h]

theorem hasTriple_three (l : Str) :
    hasTripleNl ('\n' :: '\n' :: '\n' :: l) = true := by
  simp [hasTripleNl]

theorem hasTriple_tail_false (a : Char) (l : Str)
    (h : hasTripleNl (a :: l) = false) : hasTripleNl l = false := by
  cases l with
  | nil => rfl
  | cons b l' =>
    cases l' with
    | nil => rfl
    | cons c l'' =>
      simp only [hasTripleNl, Bool.or_eq_false_iff] at h
      exact h.2

theorem hasTriple_append_left_false (x y : Str)
    (h : hasTripleNl (x ++ y) = false) : hasTripleNl y = false := by
  induction x with
  | nil => simpa using h
  | cons a x ih => exact ih (hasTriple_tail_false a _ (by simpa using h))

theorem hasTriple_prefix_false (t v : Str)
    (h : hasTripleNl (t ++ v) = false) : hasTripleNl t = false := by
  induction t with
  | nil => rfl
  | cons a t ih =>
    have h1 : hasTripleNl (a :: (t ++ v)) = false := by simpa using h
    have ht : hasTripleNl t = false := ih (hasTriple_tail_false a _ h1)
    cases t with
    | nil => rfl
    | cons b t2 =>
      cases t2 with
      | nil => rfl
      | cons c t3 =>
        by_cases habc : a = '\n' ∧ b = '\n' ∧ c = '\n'
        · exfalso
          obtain ⟨ha, hb, hc⟩ := habc
          subst ha; subst hb; subst hc
          have htr : hasTripleNl (('\n' :: '\n' :: '\n' :: t3) ++ v) = true := by
            rw [show ('\n' :: '\n' :: '\n' :: t3) ++ v =
              '\n' :: '\n' :: '\n' :: (t3 ++ v) from by simp]
            exact hasTriple_three _
          rw [htr] at h
          exact Bool.noConfusion h
        · show ((a == '\n' && b == '\n' && c == '\n') ||
            hasTripleNl (b :: c :: t3)) = false
          rw [ht, Bool.or_false]
          by_cases hA : a = '\n'
          · by_cases hB : b = '\n'
            · by_cases hC : c = '\n'
              · exact absurd ⟨hA, hB, hC⟩ habc
              · simp [hC]
            · simp [hB]
          · simp [hA]

theorem hasTriple_trim_false (s : Str) (h : hasTripleNl s = false) :
    hasTripleNl (trimStr s) = false := by
  have hy : hasTripleNl (s.dropWhile isSpaceC) = false := by
    apply hasTriple_append_left_false (s.takeWhile isSpaceC)
    rw [List.takeWhile_append_dropWhile]
    exact h
  unfold trimStr
  apply hasTriple_prefix_false _
    ((s.dropWhile isSpaceC).reverse.takeWhile isSpaceC).reverse
  have hpre : ((s.dropWhile isSpaceC).reverse.dropWhile isSpaceC).reverse ++
      ((s.dropWhile isSpaceC).reverse.takeWhile isSpaceC).reverse =
      s.dropWhile isSpaceC := by
    rw [← List.reverse_append, List.takeWhile_append_dropWhile,
      List.reverse_reverse]
  rw [hpre]
  exact hy

theorem pass7go_nil (n : Nat) : pass7go n [] = nlEmit n := rfl

theorem pass7go_cons_nl (n : Nat) (cs : Str) :
    pass7go n ('\n' :: cs) = pass7go (n+1) cs := by
  show (if ('\n' : Char) = '\n' then pass7go (n+1) cs
    else nlEmit n ++ '\n' :: pass7go 0 cs) = _
  rw [if_pos rfl]

theorem pass7go_cons_ne (n : Nat) (c : Char) (cs : Str) (h : ¬ c = '\n') :
    pass7go n (c :: cs) = nlEmit n ++ c :: pass7go 0 cs := by
  show (if c = '\n' then pass7go (n+1) cs
    else nlEmit n ++ c :: pass7go 0 cs) = _
  rw [if_neg h]

theorem nlEmit_two_of_ge (n : Nat) (h : 2 ≤ n) : nlEmit n = ['\n', '\n'] := by
  unfold nlEmit
  rw [show min n 2 = 2 from by omega]
  rfl

theorem nlEmit_of_le (n : Nat) (h : n ≤ 2) :
    nlEmit n = List.replicate n '\n' := by
  unfold nlEmit
  rw [show min n 2 = n from by omega]

theorem hasTriple_nlEmit_cons (n : Nat) (c : Char) (y : Str) (hc : ¬ c = '\n')
    (hy : hasTripleNl y = false) :
    hasTripleNl (nlEmit n ++ c :: y) = false := by
  rcases n with _ | _ | k
  · rw [show nlEmit 0 = [] from rfl, List.nil_append,
      hasTriple_cons_of_ne c y hc]
    exact hy
  · rw [show nlEmit 1 = ['\n'] from rfl]
    show hasTripleNl ('\n' :: c :: y) = false
    rw [hasTriple_cons2_of_ne '\n' c y hc, hasTriple_cons_of_ne c y hc]
    exact hy
  · rw [nlEmit_two_of_ge (k+2) (by omega)]
    show hasTripleNl ('\n' :: '\n' :: c :: y) = false
    rw [hasTriple_cons3_of_ne '\n' '\n' c y hc,
      hasTriple_cons2_of_ne '\n' c y hc, hasTriple_cons_of_ne c y hc]
    exact hy

theorem pass7go_noTriple (cs : Str) : ∀ n, hasTripleNl (pass7go n cs) = false := by
  induction cs with
  | nil =>
    intro n
    rw [pass7go_nil]
    rcases n with _ | _ | k
    · rfl
    · rfl
    · rw [nlEmit_two_of_ge (k+2) (by omega)]
      rfl
  | cons c cs ih =>
    intro n
    by_cases hc : c = '\n'
    · subst hc
      rw [pass7go_cons_nl]
      exact ih (n+1)
    · rw [pass7go_cons_ne n c cs hc]
      exact hasTriple_nlEmit_cons n c _ hc (ih 0)

theorem pass7_noTriple (s : Str) : hasTripleNl (pass7 s) = false :=
  pass7go_noTriple s 0

theorem pass7go_id (cs : Str) : ∀ n, n ≤ 2 →
    hasTripleNl (List.replicate n '\n' ++ cs) = false →
    pass7go n cs = List.replicate n '\n' ++ cs := by
  induction cs with
  | nil =>
    intro n hn _
    rw [pass7go_nil, nlEmit_of_le n hn, List.append_nil]
  | cons c cs ih =>
    intro n hn h
    by_cases hc : c = '\n'
    · subst hc
      have hshift : List.replicate n '\n' ++ '\n' :: cs =
          List.replicate (n+1) '\n' ++ cs := by
        rw [List.replicate_succ']
        simp
      have hn1 : n + 1 ≤ 2 := by
        rcases Nat.lt_or_ge n 2 with h2 | h2
        · omega
        · exfalso
          have hn2 : n = 2 := by omega
          subst hn2
          rw [show List.replicate 2 '\n' ++ '\n' :: cs =
            '\n' :: '\n' :: '\n' :: cs from rfl] at h
          rw [hasTriple_three] at h
          exact Bool.noConfusion h
      rw [pass7go_cons_nl, ih (n+1) hn1 (by rw [← hshift]; exact h), ← hshift]
    · rw [pass7go_cons_ne n c cs hc]
      have hcs : hasTripleNl cs = false := by
        have h1 : hasTripleNl (c :: cs) = false :=
          hasTriple_append_left_false _ _ h
        exact hasTriple_tail_false _ _ h1
      rw [ih 0 (by omega) (by simpa using hcs), nlEmit_of_le n hn]
      simp

theorem pass7_id_of_noTriple (s : Str) (h : hasTripleNl s = false) :
    pass7 s = s := by
  have h2 := pass7go_id s 0 (by omega) (by simpa using h)
  simpa [pass7] using h2

/-- C7 counterexample: passes 1, 2 and 3 are NOT fixed points on the
pipeline's own output.  Pass 1 blanks only the first line containing a noise
phrase, so a second noisy line survives sanitization and a rerun removes it;
the pass-3 splice of two dash runs can create a fresh run of 20 or more
dashes that a rerun's pass 2 removes; and the global left-to-right pass-3
removal can splice together a brand-new occurrence of the explore-more
pattern that a rerun removes. -/
theorem c7_counterexample :
    pass1 (sanitizeMarkdown (strL "a Please Wait\nb Please Wait")) ≠
      sanitizeMarkdown (strL "a Please Wait\nb Please Wait") ∧
    pass2 (sanitizeMarkdown (strL "a" ++ List.replicate 19 '-' ++
        strL "explore more-" ++ List.replicate 18 '-')) ≠
      sanitizeMarkdown (strL "a" ++ List.replicate 19 '-' ++
        strL "explore more-" ++ List.replicate 18 '-') ∧
    pass3 (sanitizeMarkdown (strL "explore mexplore more-ore-")) ≠
      sanitizeMarkdown (strL "explore mexplore more-ore-") := by
  decide

/-- C7 (amended): the blank-line-collapse pass (pass 7) IS a fixed point on
the pipeline's own output: for every input string, applying pass 7 to the
result of `sanitizeMarkdown` changes nothing, because pass 7 leaves no run
of three or more newlines and the final `trim` only removes characters at
the two ends, which cannot create such a run. -/
theorem c7_pass7_fixed_point (s : Str) :
    pass7 (sanitizeMarkdown s) = sanitizeMarkdown s := by
  unfold sanitizeMarkdown
  exact pass7_id_of_noTriple _ (hasTriple_trim_false _ (pass7_noTriple _))
